import Mathlib

set_option maxRecDepth 20000
set_option maxHeartbeats 2000000

/-!
Verification of the transcription response pipeline of the Triumphant
Transcripts backend (`backend/api/services/transcription.py`,
`backend/api/services/archive.py`, `backend/api/index.py`).

The Python code is shallowly embedded: texts are `List Char`, JSON-parsed
Python values are `PyVal`, Python dicts are association lists with
first-occurrence key semantics, raised exceptions are the error side of
`Except PyErr`, and calls to the external Gemini model are oracles (plain
functions supplied as parameters).  Every definition is translated from the
source; line numbers in the doc comments refer to the source files.

Modelling notes, stated once:
* characters are Unicode scalars, as in Lean; Python strings may also hold
  lone surrogates, which only arise from decoding a lone `\uXXXX` escape —
  the embedded JSON parser maps those to U+FFFD, a divergence unreachable
  from any serialiser output;
* `json` module error messages are modelled without the trailing
  `line/column` position suffixes, which no code path inspects (the only
  inspection is the substring test for `Invalid control character`);
* the regular-expression character classes `\w`, `\d`, `\s` and
  `str.strip` whitespace are modelled on their ASCII-and-common-Unicode
  fragments, uniformly on both the code side and the specification side.
-/

/-! ## Python string primitives -/

/-- Characters removed by Python `str.strip()` (per-character `str.isspace`):
tab through carriage return, the C1 separators 0x1c-0x1f, space, NEL, NBSP
and the Unicode space separators. -/
def isPySpace (c : Char) : Bool :=
  (9 ≤ c.toNat && c.toNat ≤ 13) || (28 ≤ c.toNat && c.toNat ≤ 32) ||
  c.toNat = 0x85 || c.toNat = 0xa0 || c.toNat = 0x1680 ||
  (0x2000 ≤ c.toNat && c.toNat ≤ 0x200a) ||
  c.toNat = 0x2028 || c.toNat = 0x2029 || c.toNat = 0x202f ||
  c.toNat = 0x205f || c.toNat = 0x3000

/-- `str.lstrip()`. -/
def pyLStrip (s : List Char) : List Char := s.dropWhile isPySpace

/-- `str.rstrip()`. -/
def pyRStrip (s : List Char) : List Char := (s.reverse.dropWhile isPySpace).reverse

/-- Python `str.strip()`: remove leading and trailing whitespace. -/
def pyStrip (s : List Char) : List Char := pyRStrip (pyLStrip s)

/-! ## Truncation heuristic (`transcription.py` lines 59-60, 298-311) -/

/-- `MAX_CONTINUATION_ATTEMPTS = 1` (`transcription.py` line 59). -/
def MAX_CONTINUATION_ATTEMPTS : Nat := 1

/-- `MIN_TRUNCATION_LENGTH = 200` (`transcription.py` line 60). -/
def MIN_TRUNCATION_LENGTH : Nat := 200

/-- The `terminal_chars` set of `_is_truncated` (`transcription.py` line 307). -/
def terminal_chars : List Char := ['.', '!', '?', '"', '\'', ')', '…', '”', '’']

/-- `_is_truncated` (`transcription.py` lines 298-311): strip the text;
empty → `false`; stripped length below `MIN_TRUNCATION_LENGTH` → `false`;
last character of the stripped text in `terminal_chars` → `false`;
otherwise `true`. -/
def is_truncated (text : List Char) : Bool :=
  let stripped := pyStrip text
  if stripped = [] then false
  else if stripped.length < MIN_TRUNCATION_LENGTH then false
  else if stripped.getLastD ' ' ∈ terminal_chars then false
  else true

/-- The last non-whitespace character of a text, if any.  This is the
specification-side notion used by the truncation claims; it is defined
directly from the raw text, independent of `pyStrip`. -/
def lastNonWsChar (text : List Char) : Option Char :=
  (text.reverse.dropWhile isPySpace).head?

/-! ## Python values, dicts and exceptions -/

/-- A Python value as produced by `json.loads` (plus the values the pipeline
itself builds).  Integer number tokens become `int`; non-integer number tokens
are kept as their lexeme in `numF`, since no code path inspects float
arithmetic. -/
inductive PyVal where
  | null : PyVal
  | bool : Bool → PyVal
  | int : Int → PyVal
  | numF : List Char → PyVal
  | str : List Char → PyVal
  | arr : List PyVal → PyVal
  | dict : List (List Char × PyVal) → PyVal

/-- A Python dict with string keys: an association list.  All operations use
first-occurrence semantics, matching a Python dict (which cannot hold a
duplicated key; the operations below never create one). -/
abbrev PyDict : Type := List (List Char × PyVal)

/-- `d[k]` lookup returning an option (`d.get(k)` is `none` ↦ `None`). -/
def dictGet (d : PyDict) (k : List Char) : Option PyVal :=
  match d with
  | [] => none
  | (k2, v) :: rest => if k2 = k then some v else dictGet rest k

/-- `d.get(k, default)`. -/
def dictGetD (d : PyDict) (k : List Char) (dflt : PyVal) : PyVal :=
  (dictGet d k).getD dflt

/-- `d[k] = v`: update in place if the key exists (keeping its position),
otherwise append — exactly a Python dict assignment. -/
def dictSet (d : PyDict) (k : List Char) (v : PyVal) : PyDict :=
  match d with
  | [] => [(k, v)]
  | (k2, v2) :: rest => if k2 = k then (k2, v) :: rest else (k2, v2) :: dictSet rest k v

/-- `d.setdefault(k, v)` (`archive.py` lines 285-286). -/
def dictSetdefault (d : PyDict) (k : List Char) (v : PyVal) : PyDict :=
  if (dictGet d k).isSome then d else d ++ [(k, v)]

/-- A raised Python exception, reduced to its type and `str(exc)` payload.
`jsonDecodeError` is `json.JSONDecodeError` (a `ValueError` subclass is kept
separate as the code distinguishes them only jointly). -/
inductive PyErr where
  | jsonDecodeError : List Char → PyErr
  | valueError : List Char → PyErr
  | attributeError : List Char → PyErr
  | keyError : List Char → PyErr
  | typeError : List Char → PyErr
  | exc : List Char → PyErr

/-- `str(exc)`: the message, except that `str(KeyError(k))` is `repr(k)`,
the key wrapped in single quotes. -/
def pyErrStr (e : PyErr) : List Char :=
  match e with
  | .jsonDecodeError m => m
  | .valueError m => m
  | .attributeError m => m
  | .keyError k => Char.ofNat 39 :: k ++ [Char.ofNat 39]
  | .typeError m => m
  | .exc m => m

/-- Python truthiness of a `PyVal` (`bool(v)`).  A float is falsy when its
mantissa digits are all zero. -/
def pyTruthy (v : PyVal) : Bool :=
  match v with
  | .null => false
  | .bool b => b
  | .int n => n ≠ 0
  | .numF lex => !((lex.takeWhile (fun c => c ≠ 'e' && c ≠ 'E')).all
      (fun c => c = '0' || c = '.' || c = '-'))
  | .str s => s ≠ []
  | .arr xs => !xs.isEmpty
  | .dict d => !d.isEmpty

/-- `dict[k]` subscript: `KeyError` when absent. -/
def getItem (d : PyDict) (k : List Char) : Except PyErr PyVal :=
  match dictGet d k with
  | some v => .ok v
  | none => .error (.keyError k)

/-! ## Continuation merge step (`transcription.py` lines 191-198) -/

/-- The two strict-variant field names (`transcription.py` line 191). -/
def originalStrictKey : List Char := "originalStrict".toList

/-- The second strict-variant field name. -/
def englishStrictKey : List Char := "englishStrict".toList

/-- `addition_raw or ""` (line 193): `None` (a missing key) and falsy values
become the empty string, any truthy value passes through. -/
def pyOrEmptyStr (v : Option PyVal) : PyVal :=
  match v with
  | none => .str []
  | some val => if pyTruthy val then val else .str []

/-- `(addition_raw or "").strip()`: `AttributeError` when the surviving value
is not a string. -/
def pyStripVal (v : PyVal) : Except PyErr (List Char) :=
  match v with
  | .str s => .ok (pyStrip s)
  | _ => .error (.attributeError "strip".toList)

/-- Line 197, evaluated left to right: `"" if not base or base.endswith((" ",
"\n")) else " "`, then the f-string renders `base` via `str()`.  A falsy
non-string base is rendered (`0`, `False`, `None`, `[]`, the empty dict);
a truthy non-string base raises `AttributeError` at `endswith` before any
rendering. -/
def sepAndBase (baseV : PyVal) : Except PyErr (List Char × List Char) :=
  match baseV with
  | .str s =>
      .ok (s, if s = [] ∨ s.getLast? = some ' ' ∨ s.getLast? = some '\n' then [] else [' '])
  | .int n => if n = 0 then .ok ("0".toList, []) else .error (.attributeError "endswith".toList)
  | .bool b => if b then .error (.attributeError "endswith".toList) else .ok ("False".toList, [])
  | .null => .ok ("None".toList, [])
  | .numF lex =>
      if pyTruthy (.numF lex) then .error (.attributeError "endswith".toList)
      else .ok ("0.0".toList, [])
  | .arr xs =>
      if xs.isEmpty then .ok ("[]".toList, [])
      else .error (.attributeError "endswith".toList)
  | .dict d =>
      if d.isEmpty then .ok ([Char.ofNat 123, Char.ofNat 125], [])
      else .error (.attributeError "endswith".toList)

/-- One iteration of the merge loop body for one field (`transcription.py`
lines 192-198): read the addition from the continuation dict, strip it, skip
when empty, otherwise append with the separator rule. -/
def mergeOne (variants : PyDict) (field : List Char) (cont : PyDict) :
    Except PyErr PyDict := do
  let additionRaw := pyOrEmptyStr (dictGet cont field)
  let addition ← pyStripVal additionRaw
  if addition = [] then
    pure variants
  else do
    let baseV := dictGetD variants field (.str [])
    let (baseS, sep) ← sepAndBase baseV
    pure (dictSet variants field (.str (baseS ++ sep ++ addition)))

/-! ## The `json` module: `json.loads` (strict and `strict=False`) -/

/-- JSON whitespace (the `json` module skips exactly these four). -/
def isJsonWs (c : Char) : Bool :=
  c = ' ' || c = '\t' || c = '\n' || c = '\r'

/-- Skip JSON whitespace. -/
def skipWs (s : List Char) : List Char := s.dropWhile isJsonWs

/-- Value of one hex digit, case-insensitive. -/
def hexDigitVal (c : Char) : Option Nat :=
  if '0' ≤ c ∧ c ≤ '9' then some (c.toNat - 48)
  else if 'a' ≤ c ∧ c ≤ 'f' then some (c.toNat - 87)
  else if 'A' ≤ c ∧ c ≤ 'F' then some (c.toNat - 55)
  else none

/-- A `json.JSONDecodeError`, by kind.  `jerrMsg` renders the message text
(without the `line/column` suffix, which no code path inspects). -/
inductive JErr where
  | expectingValue : JErr
  | invalidControlChar : JErr
  | unterminatedString : JErr
  | invalidEscape : JErr
  | invalidUnicodeEscape : JErr
  | expectingPropertyName : JErr
  | expectingColonDelimiter : JErr
  | expectingCommaDelimiter : JErr
  | extraData : JErr
  | tooDeep : JErr
deriving DecidableEq

/-- The message text of a decode error (`str(exc)` up to the position
suffix; the colon/comma delimiter messages drop the quoted punctuation). -/
def jerrMsg (e : JErr) : List Char :=
  match e with
  | .expectingValue => "Expecting value".toList
  | .invalidControlChar => "Invalid control character at".toList
  | .unterminatedString => "Unterminated string starting at".toList
  | .invalidEscape => "Invalid escape".toList
  | .invalidUnicodeEscape => "Invalid uXXXX escape".toList
  | .expectingPropertyName => "Expecting property name enclosed in double quotes".toList
  | .expectingColonDelimiter => "Expecting colon delimiter".toList
  | .expectingCommaDelimiter => "Expecting comma delimiter".toList
  | .extraData => "Extra data".toList
  | .tooDeep => "Maximum recursion depth exceeded".toList

/-- Decode a single-character escape (`\" \\ \/ \b \f \n \r \t`). -/
def escDecode (e : Char) : Option Char :=
  if e = '"' then some '"'
  else if e = '\\' then some '\\'
  else if e = '/' then some '/'
  else if e = 'b' then some (Char.ofNat 8)
  else if e = 'f' then some (Char.ofNat 12)
  else if e = 'n' then some '\n'
  else if e = 'r' then some '\r'
  else if e = 't' then some '\t'
  else none

/-- A code point decoded from `\uXXXX`.  A lone surrogate — which Python
keeps as a surrogate code unit, unrepresentable in a Lean `Char` — becomes
U+FFFD; unreachable from any serialiser output. -/
def uniFromHex (n : Nat) : Char :=
  if n.isValidChar then Char.ofNat n else Char.ofNat 0xFFFD

/-- The body of a JSON string after the opening quote (`py_scanstring`).
In strict mode a raw control character (below 0x20) is an error; with
`strict=False` it is accepted literally.  Returns the decoded string and
the rest of the input after the closing quote. -/
def parseStringBody (strict : Bool) : Nat → List Char → Except JErr (List Char × List Char)
  | 0, _ => .error .tooDeep
  | _ + 1, [] => .error .unterminatedString
  | fuel + 1, c :: rest =>
    if c = '"' then .ok ([], rest)
    else if c = '\\' then
      match rest with
      | [] => .error .unterminatedString
      | e :: rest2 =>
        if e = 'u' then
          match rest2 with
          | h3 :: h2 :: h1 :: h0 :: rest3 =>
            (match hexDigitVal h3, hexDigitVal h2, hexDigitVal h1, hexDigitVal h0 with
            | some a, some b, some cc, some d =>
              let n := a * 4096 + b * 256 + cc * 16 + d
              if 0xD800 ≤ n ∧ n ≤ 0xDBFF then
                match rest3 with
                | '\\' :: 'u' :: g3 :: g2 :: g1 :: g0 :: rest4 =>
                  (match hexDigitVal g3, hexDigitVal g2, hexDigitVal g1, hexDigitVal g0 with
                  | some a2, some b2, some c2, some d2 =>
                    let m := a2 * 4096 + b2 * 256 + c2 * 16 + d2
                    if 0xDC00 ≤ m ∧ m ≤ 0xDFFF then
                      (parseStringBody strict fuel rest4).map
                        (fun p =>
                          (Char.ofNat (0x10000 + (n - 0xD800) * 0x400 + (m - 0xDC00)) :: p.1,
                           p.2))
                    else
                      (parseStringBody strict fuel
                          ('\\' :: 'u' :: g3 :: g2 :: g1 :: g0 :: rest4)).map
                        (fun p => (uniFromHex n :: p.1, p.2))
                  | _, _, _, _ => .error .invalidUnicodeEscape)
                | _ =>
                  (parseStringBody strict fuel rest3).map (fun p => (uniFromHex n :: p.1, p.2))
              else
                (parseStringBody strict fuel rest3).map (fun p => (uniFromHex n :: p.1, p.2))
            | _, _, _, _ => .error .invalidUnicodeEscape)
          | _ => .error .invalidUnicodeEscape
        else
          match escDecode e with
          | some c2 => (parseStringBody strict fuel rest2).map (fun p => (c2 :: p.1, p.2))
          | none => .error .invalidEscape
    else if strict ∧ c.toNat < 0x20 then .error .invalidControlChar
    else (parseStringBody strict fuel rest).map (fun p => (c :: p.1, p.2))

/-- Digits to `Nat`. -/
def digitsToNat (ds : List Char) : Nat :=
  ds.foldl (fun a c => a * 10 + (c.toNat - 48)) 0

/-- The integer part of a JSON number: `0` or a nonzero digit followed by
digits (the grammar forbids leading zeros). -/
def lexIntPart : List Char → Option (List Char × List Char)
  | [] => none
  | c :: rest =>
    if c = '0' then some (['0'], rest)
    else if c.isDigit then
      some (c :: rest.takeWhile Char.isDigit, rest.dropWhile Char.isDigit)
    else none

/-- The fraction part: `.` followed by at least one digit, or nothing. -/
def lexFrac (s : List Char) : List Char × List Char :=
  match s with
  | '.' :: rest =>
    let ds := rest.takeWhile Char.isDigit
    if ds.isEmpty then ([], s) else ('.' :: ds, rest.dropWhile Char.isDigit)
  | _ => ([], s)

/-- The exponent part: `e`/`E`, optional sign, at least one digit. -/
def lexExp (s : List Char) : List Char × List Char :=
  match s with
  | e :: rest =>
    if e = 'e' ∨ e = 'E' then
      match rest with
      | sign :: rest2 =>
        if sign = '+' ∨ sign = '-' then
          (let ds := rest2.takeWhile Char.isDigit
           if ds.isEmpty then ([], s)
           else (e :: sign :: ds, rest2.dropWhile Char.isDigit))
        else
          (let ds := rest.takeWhile Char.isDigit
           if ds.isEmpty then ([], s) else (e :: ds, rest.dropWhile Char.isDigit))
      | [] => ([], s)
    else ([], s)
  | [] => ([], s)

/-- Lex a JSON number (the `NUMBER_RE` match).  An integer lexeme becomes a
Python `int`; a lexeme with a fraction or exponent becomes a float, kept as
its lexeme. -/
def lexNumber (s : List Char) : Option (PyVal × List Char) :=
  let negAndRest : Bool × List Char :=
    match s with
    | '-' :: r => (true, r)
    | _ => (false, s)
  match lexIntPart negAndRest.2 with
  | none => none
  | some (ids, s2) =>
    let fr := lexFrac s2
    let ex := lexExp fr.2
    if fr.1.isEmpty && ex.1.isEmpty then
      some (.int (if negAndRest.1 then -(digitsToNat ids : Int) else (digitsToNat ids : Int)), ex.2)
    else
      some (.numF ((if negAndRest.1 then ['-'] else []) ++ ids ++ fr.1 ++ ex.1), ex.2)

mutual

/-- One JSON value (`scan_once`).  The `Nat` fuel models Python's recursion
limit; `jsonLoads` supplies `length + 1`, which no input can exhaust since
every nesting level and every container item consumes input. -/
def parseValue (strict : Bool) : Nat → List Char → Except JErr (PyVal × List Char)
  | 0, _ => .error .tooDeep
  | fuel + 1, s =>
    match skipWs s with
    | [] => .error .expectingValue
    | c :: rest =>
      if c = '{' then
        match skipWs rest with
        | '}' :: rest2 => .ok (.dict [], rest2)
        | '"' :: rest2 => parseMembers strict fuel rest2 []
        | _ => .error .expectingPropertyName
      else if c = '[' then
        match skipWs rest with
        | ']' :: rest2 => .ok (.arr [], rest2)
        | _ => parseElements strict fuel (skipWs rest) []
      else if c = '"' then
        (parseStringBody strict (rest.length + 1) rest).map (fun p => (.str p.1, p.2))
      else if c = 't' then
        (if "rue".toList.isPrefixOf rest then .ok (.bool true, rest.drop 3)
         else .error .expectingValue)
      else if c = 'f' then
        (if "alse".toList.isPrefixOf rest then .ok (.bool false, rest.drop 4)
         else .error .expectingValue)
      else if c = 'n' then
        (if "ull".toList.isPrefixOf rest then .ok (.null, rest.drop 3)
         else .error .expectingValue)
      else if c = 'N' then
        (if "aN".toList.isPrefixOf rest then .ok (.numF "NaN".toList, rest.drop 2)
         else .error .expectingValue)
      else if c = 'I' then
        (if "nfinity".toList.isPrefixOf rest then .ok (.numF "Infinity".toList, rest.drop 7)
         else .error .expectingValue)
      else
        match lexNumber (c :: rest) with
        | some (v, rest2) => .ok (v, rest2)
        | none =>
          if "-Infinity".toList.isPrefixOf (c :: rest) then
            .ok (.numF "-Infinity".toList, rest.drop 8)
          else .error .expectingValue

/-- The members of an object, entered just after the opening quote of a key.
Accumulates with `dictSet`, so a repeated key keeps its first position and
its last value, as in a Python dict. -/
def parseMembers (strict : Bool) : Nat → List Char → PyDict → Except JErr (PyVal × List Char)
  | 0, _, _ => .error .tooDeep
  | fuel + 1, s, acc =>
    match parseStringBody strict (s.length + 1) s with
    | .error e => .error e
    | .ok (key, r1) =>
      match skipWs r1 with
      | ':' :: r2 =>
        match parseValue strict fuel r2 with
        | .error e => .error e
        | .ok (v, r3) =>
          match skipWs r3 with
          | ',' :: r4 =>
            match skipWs r4 with
            | '"' :: r5 => parseMembers strict fuel r5 (dictSet acc key v)
            | _ => .error .expectingPropertyName
          | '}' :: r4 => .ok (.dict (dictSet acc key v), r4)
          | _ => .error .expectingCommaDelimiter
      | _ => .error .expectingColonDelimiter

/-- The elements of a non-empty array. -/
def parseElements (strict : Bool) : Nat → List Char → List PyVal → Except JErr (PyVal × List Char)
  | 0, _, _ => .error .tooDeep
  | fuel + 1, s, acc =>
    match parseValue strict fuel s with
    | .error e => .error e
    | .ok (v, r1) =>
      match skipWs r1 with
      | ',' :: r2 => parseElements strict fuel r2 (acc ++ [v])
      | ']' :: r2 => .ok (.arr (acc ++ [v]), r2)
      | _ => .error .expectingCommaDelimiter

end

/-- `json.loads(s)` (with `strict` selecting the control-character mode used
at `transcription.py` lines 337 and 343): parse one value, then require only
whitespace to follow. -/
def jsonLoads (strict : Bool) (s : List Char) : Except JErr PyVal :=
  match parseValue strict (s.length + 1) s with
  | .error e => .error e
  | .ok (v, rest) => if (skipWs rest).isEmpty then .ok v else .error .extraData

/-! ## `json.dumps` for flat string maps (the serialisation in claim C6) -/

/-- Lower-case hex digit. -/
def toHexDigit (n : Nat) : Char :=
  if n < 10 then Char.ofNat (48 + n) else Char.ofNat (87 + n)

/-- Four hex digits. -/
def hex4 (n : Nat) : List Char :=
  [toHexDigit (n / 4096 % 16), toHexDigit (n / 256 % 16),
   toHexDigit (n / 16 % 16), toHexDigit (n % 16)]

/-- `json.dumps` escaping of one character with the default
`ensure_ascii=True`: the two-character escapes, `\uXXXX` for other control
and non-ASCII characters, a surrogate pair for the astral plane. -/
def escapeChar (c : Char) : List Char :=
  if c = '"' then ['\\', '"']
  else if c = '\\' then ['\\', '\\']
  else if c = '\n' then ['\\', 'n']
  else if c = '\r' then ['\\', 'r']
  else if c = '\t' then ['\\', 't']
  else if c.toNat = 8 then ['\\', 'b']
  else if c.toNat = 12 then ['\\', 'f']
  else if c.toNat < 0x20 then '\\' :: 'u' :: hex4 c.toNat
  else if c.toNat < 0x7f then [c]
  else if c.toNat < 0x10000 then '\\' :: 'u' :: hex4 c.toNat
  else
    '\\' :: 'u' :: hex4 (0xD800 + (c.toNat - 0x10000) / 0x400) ++
      ('\\' :: 'u' :: hex4 (0xDC00 + (c.toNat - 0x10000) % 0x400))

/-- Escape a whole string. -/
def escString (s : List Char) : List Char := (s.map escapeChar).flatten

/-- A serialised JSON string. -/
def dumpsStr (s : List Char) : List Char := '"' :: escString s ++ ['"']

/-- The members of a serialised flat object, with the default separators
`", "` and `": "`. -/
def dumpsPairs : List (List Char × List Char) → List Char
  | [] => []
  | [(k, v)] => dumpsStr k ++ ':' :: ' ' :: dumpsStr v
  | (k, v) :: rest => dumpsStr k ++ ':' :: ' ' :: dumpsStr v ++ ',' :: ' ' :: dumpsPairs rest

/-- `json.dumps(X)` for a mapping with string values. -/
def jsonDumpsFlat (x : List (List Char × List Char)) : List Char :=
  '{' :: dumpsPairs x ++ ['}']

/-- The serialised continuation of an object after one member: either the
closing brace or `", "` and the remaining members.  Used to phrase the
parser-printer round trip; related to `dumpsPairs` by
`dumpsPairs_eq_membersFrom`. -/
def dumpsMembersFrom : List (List Char × List Char) → List Char → List Char
  | [], rest => '}' :: rest
  | (k, v) :: tail, rest =>
    ',' :: ' ' :: '"' ::
      (escString k ++ '"' :: ':' :: ' ' :: dumpsStr v ++ dumpsMembersFrom tail rest)

/-! ## Code-fence stripping (`transcription.py` lines 283-295) -/

/-- Substring test, Python `pat in s`. -/
def containsSeq (pat : List Char) : List Char → Bool
  | [] => pat.isEmpty
  | c :: rest => pat.isPrefixOf (c :: rest) || containsSeq pat rest

/-- Prepend a character to the first piece of a split. -/
def consHead (c : Char) : List (List Char) → List (List Char)
  | [] => [[c]]
  | h :: t => (c :: h) :: t

/-- The fence delimiter. -/
def tickSeq : List Char := "```".toList

/-- Python `s.split("```")`: non-overlapping, leftmost-first. -/
def splitTicks : List Char → List (List Char)
  | '`' :: '`' :: '`' :: rest => [] :: splitTicks rest
  | c :: rest => consHead c (splitTicks rest)
  | [] => [[]]

/-- `_strip_code_fence` (`transcription.py` lines 283-295): strip, and if the
text starts with a fence, split on the delimiter, keep the first enclosed
segment, drop a leading `json`/`text` tag, strip again. -/
def strip_code_fence (text : List Char) : List Char :=
  let cleaned := pyStrip text
  if tickSeq.isPrefixOf cleaned then
    let segments := splitTicks cleaned
    let cleaned2 :=
      if 2 ≤ segments.length then
        (let seg := segments.getD 1 []
         if "json".toList.isPrefixOf seg then seg.drop 4
         else if "text".toList.isPrefixOf seg then seg.drop 4
         else seg)
      else cleaned
    pyStrip cleaned2
  else cleaned

/-- The fence wrapping named by claim C6: a leading triple-backtick with a
`json` language tag and a trailing triple-backtick. -/
def fenceWrap (s : List Char) : List Char :=
  "```json\n".toList ++ s ++ "\n```".toList

/-! ## Tolerant extraction and the parse-failure path
(`transcription.py` lines 334-369 and 277-279) -/

/-- Eight hex digits. -/
def hex8 (n : Nat) : List Char := hex4 (n / 65536) ++ hex4 (n % 65536)

/-- One character under `snippet.encode("unicode_escape", "backslashreplace")
.decode("ascii", "replace")` (`transcription.py` lines 359-362): printable
ASCII kept, `\\ \n \r \t` as two-character escapes, everything else as
`\xXX`, `\uXXXX` or `\UXXXXXXXX`. -/
def escapeLogChar (c : Char) : List Char :=
  if c = '\\' then ['\\', '\\']
  else if c = '\n' then ['\\', 'n']
  else if c = '\r' then ['\\', 'r']
  else if c = '\t' then ['\\', 't']
  else if 0x20 ≤ c.toNat ∧ c.toNat < 0x7f then [c]
  else if c.toNat < 0x100 then ['\\', 'x', toHexDigit (c.toNat / 16), toHexDigit (c.toNat % 16)]
  else if c.toNat < 0x10000 then '\\' :: 'u' :: hex4 c.toNat
  else '\\' :: 'U' :: hex8 c.toNat

/-- The `unicode_escape` rendering of a snippet. -/
def unicodeEscape (s : List Char) : List Char := (s.map escapeLogChar).flatten

/-- The error-log record emitted by `_log_and_raise_parse_error`
(`transcription.py` lines 363-368). -/
structure ParseLog where
  sessionId : Option (List Char)
  errorMsg : List Char
  safeSnippet : List Char

/-- The decode error as a raised Python exception. -/
def pyErrOfJErr (e : JErr) : PyErr := .jsonDecodeError (jerrMsg e)

/-- `_log_and_raise_parse_error` (`transcription.py` lines 355-369): log the
session id, the error and the escaped 800-character snippet, then re-raise
`exc` itself. -/
def log_and_raise_parse_error (parsedText : List Char) (sessionId : Option (List Char))
    (e : PyErr) : Except PyErr PyVal × Option ParseLog :=
  (.error e, some ⟨sessionId, pyErrStr e, unicodeEscape (parsedText.take 800)⟩)

/-- The parse half of `_request_strict_variants` (`transcription.py` lines
334-352): strip the fence, parse strictly; on an `Invalid control character`
failure retry with `strict=False`; otherwise (or if that also fails) log and
re-raise the original strict-parse error. -/
def requestParse (rawResponseText : List Char) (sessionId : Option (List Char)) :
    Except PyErr PyVal × Option ParseLog :=
  let parsedText := strip_code_fence rawResponseText
  match jsonLoads true parsedText with
  | .ok v => (.ok v, none)
  | .error e =>
    if containsSeq "Invalid control character".toList (jerrMsg e) then
      match jsonLoads false parsedText with
      | .ok v => (.ok v, none)
      | .error _ => log_and_raise_parse_error parsedText sessionId (pyErrOfJErr e)
    else log_and_raise_parse_error parsedText sessionId (pyErrOfJErr e)

/-- The `except json.JSONDecodeError` handler of `transcribe_audio`
(`transcription.py` lines 277-279): a decode error is re-raised as a typed
`ValueError`; any other exception propagates unchanged (lines 280-282). -/
def wrapJsonError (e : PyErr) : PyErr :=
  match e with
  | .jsonDecodeError m =>
      .valueError ("Failed to parse Gemini response as JSON: ".toList ++ m)
  | e => e

/-! ## The session pipeline (`transcription.py` lines 106-282)

The two external effects — the Gemini model and the archive backend — are
oracles inside `Oracles`: `modelRaw n` is the raw `response.text` of the
initial request (`n = 0`) or of continuation attempt `n ≥ 1` (an `error`
models a transport exception from the client); `lightModel` is the light-edit
model call, `none` modelling any exception inside the `try` of
`apply_light_edit` (which falls back to the input); `storeOutcome` is the
result of the selected backend's `store`. -/

/-- The per-session request constants captured at lines 113-118 and used for
the metadata at lines 231-241. -/
structure SessionEnv where
  sessionId : List Char
  modelName : List Char
  envLabel : List Char
  receivedAt : List Char
  safeName : List Char
  mimeType : List Char
  fileSize : Nat

/-- The external-effect oracles of one session. -/
structure Oracles where
  modelRaw : Nat → Except PyErr (List Char)
  lightModel : List Char → Option (List Char)
  storeOutcome : Except PyErr PyDict
  backendName : List Char

/-- `_request_strict_variants` (`transcription.py` lines 314-352): the model
call followed by tolerant parsing; returns the parsed value and the raw
response text. -/
def request_strict_variants (O : Oracles) (attempt : Nat) (sid : Option (List Char)) :
    Except PyErr (PyVal × List Char) × Option ParseLog :=
  match O.modelRaw attempt with
  | .error e => (.error e, none)
  | .ok raw =>
    match requestParse raw sid with
    | (.ok v, l) => (.ok ((v, raw) : PyVal × List Char), l)
    | (.error e, l) => (.error e, l)

/-- The exceptions caught by `except (json.JSONDecodeError, ValueError)` at
line 169. -/
def isCaughtAt169 (e : PyErr) : Bool :=
  match e with
  | .jsonDecodeError _ => true
  | .valueError _ => true
  | _ => false

/-- `_is_truncated(value)` for a dict value: `AttributeError` on a
non-string (`.strip()` at line 300). -/
def is_truncated_val (v : PyVal) : Except PyErr Bool :=
  match v with
  | .str s => .ok (is_truncated s)
  | _ => .error (.attributeError "strip".toList)

/-- Lines 138-141 / 200-203: `any(_is_truncated(strict_variants.get(field,
"")) for field in (...))` — the generator short-circuits, so the English
field is only inspected when the original field is not truncated. -/
def needs_continuation (v : PyDict) : Except PyErr Bool := do
  let b1 ← is_truncated_val (dictGetD v originalStrictKey (.str []))
  if b1 then
    pure true
  else
    is_truncated_val (dictGetD v englishStrictKey (.str []))

/-- The state at exit of the continuation loop. -/
structure LoopRes where
  variants : PyDict
  retryCount : Nat
  needs : Bool
  contRaws : List (List Char)

/-- The `while` loop of lines 145-203.  The `Nat` argument is the loop
variant `MAX_CONTINUATION_ATTEMPTS - retry_count`, so the guard
`retry_count < MAX_CONTINUATION_ATTEMPTS` is fuel exhaustion.  A parse
failure breaks without appending the raw response (lines 169-176); a
non-dict parse appends it and breaks (lines 178-187); a transport error
propagates. -/
def contLoop (O : Oracles) (env : SessionEnv) :
    Nat → PyDict → Nat → Bool → List (List Char) → Except PyErr LoopRes
  | 0, v, r, n, raws => .ok ⟨v, r, n, raws⟩
  | fuel + 1, v, r, n, raws =>
    if n = false then .ok ⟨v, r, n, raws⟩
    else
      match (request_strict_variants O (r + 1) (some env.sessionId)).1 with
      | .error e => if isCaughtAt169 e then .ok ⟨v, r + 1, n, raws⟩ else .error e
      | .ok (contVal, contRaw) =>
        let raws2 := raws ++ [pyStrip contRaw]
        match contVal with
        | .dict contDict => do
          let v1 ← mergeOne v originalStrictKey contDict
          let v2 ← mergeOne v1 englishStrictKey contDict
          let n2 ← needs_continuation v2
          contLoop O env fuel v2 (r + 1) n2 raws2
        | _ => .ok ⟨v, r + 1, n, raws2⟩

/-- Line 139 `strict_variants.get`: an `AttributeError` when the parsed
value is not a dict. -/
def asStrictDict (parsed : PyVal) : Except PyErr PyDict :=
  match parsed with
  | .dict d => .ok d
  | _ => .error (.attributeError "get".toList)

/-- Lines 136-212: truncation detection and the continuation loop, returning
the loop exit state and `truncation_detected` (line 143). -/
def preLight (O : Oracles) (env : SessionEnv) (parsed : PyVal) :
    Except PyErr (LoopRes × Bool) := do
  let sv0 ← asStrictDict parsed
  let n0 ← needs_continuation sv0
  let lr ← contLoop O env MAX_CONTINUATION_ATTEMPTS sv0 0 n0 []
  pure (lr, n0)

/-- `apply_light_edit` (`transcription.py` lines 63-103) applied to a dict
value.  The prompt concatenation `"Text:\n" + text` sits outside the `try`,
so a non-string raises `TypeError`; inside the `try` every failure returns
the input text, and a successful response is stripped of a code fence by
the inline copy (lines 89-97) of `_strip_code_fence`. -/
def apply_light_edit_val (O : Oracles) (v : PyVal) : Except PyErr (List Char) :=
  match v with
  | .str s =>
    .ok (match O.lightModel s with
      | none => s
      | some resp => strip_code_fence resp)
  | _ => .error (.typeError "can only concatenate str".toList)

/-- `result.get("backend") != "none"` (`archive.py` line 286): a Python
`!=` between a non-string and a string is `True`. -/
def pyNeNoneStr (v : PyVal) : Bool :=
  match v with
  | .str s => decide (s ≠ "none".toList)
  | _ => true

/-- `ArchiveManager.persist_session` (`archive.py` lines 254-287): any
exception from the backend's `store` becomes
`{enabled: False, backend: <name>, error: str(exc)}`; a successful result
gets `backend` and `enabled` defaulted via `setdefault`. -/
def persist_session (backendName : List Char) (storeOutcome : Except PyErr PyDict) :
    PyDict :=
  match storeOutcome with
  | .error e =>
    [("enabled".toList, .bool false), ("backend".toList, .str backendName),
     ("error".toList, .str (pyErrStr e))]
  | .ok result =>
    let r1 := dictSetdefault result "backend".toList (.str backendName)
    dictSetdefault r1 "enabled".toList
      (.bool (pyNeNoneStr (dictGetD r1 "backend".toList .null)))

/-- The observable outcome of one session. -/
structure Outcome where
  resultDict : PyDict
  metadata : PyDict
  archiveInfo : PyDict
  strictVariants : PyDict
  retryCount : Nat
  truncationDetected : Bool
  truncatedAfterRetries : Bool

/-- `transcribe_audio` after the initial parse (`transcription.py` lines
136-275): the continuation phase, the two light edits (line 216 subscripts
`strict_variants["originalStrict"]` — a `KeyError` when absent), the archive
metadata of lines 231-241, the best-effort archival, and the final result
dict of lines 265-272. -/
def transcribeFromParsed (O : Oracles) (env : SessionEnv) (parsed : PyVal) :
    Except PyErr Outcome := do
  let lrtd ← preLight O env parsed
  let ov ← getItem lrtd.1.variants originalStrictKey
  let oLight ← apply_light_edit_val O ov
  let ev ← getItem lrtd.1.variants englishStrictKey
  let eLight ← apply_light_edit_val O ev
  let metadata : PyDict :=
    [("model".toList, .str env.modelName), ("environment".toList, .str env.envLabel),
     ("receivedAt".toList, .str env.receivedAt), ("filename".toList, .str env.safeName),
     ("contentType".toList, .str env.mimeType),
     ("sizeBytes".toList, .int (Int.ofNat env.fileSize)),
     ("continuationAttempts".toList, .int (Int.ofNat lrtd.1.retryCount)),
     ("truncationDetected".toList, .bool lrtd.2),
     ("truncatedAfterRetries".toList, .bool lrtd.1.needs)]
  let archiveInfo := persist_session O.backendName O.storeOutcome
  let ov2 ← getItem lrtd.1.variants originalStrictKey
  let ev2 ← getItem lrtd.1.variants englishStrictKey
  let resultDict : PyDict :=
    [("sessionId".toList, .str env.sessionId), ("archive".toList, .dict archiveInfo),
     ("originalStrict".toList, ov2), ("originalLight".toList, .str oLight),
     ("englishStrict".toList, ev2), ("englishLight".toList, .str eLight)]
  pure ⟨resultDict, metadata, archiveInfo, lrtd.1.variants, lrtd.1.retryCount,
    lrtd.2, lrtd.1.needs⟩

/-- The `strict_variants` mapping at the moment control reaches the
light-edit step (line 214), when it does. -/
def strictVariantsAtLightEdit (O : Oracles) (env : SessionEnv) (parsed : PyVal) :
    Option PyDict :=
  match preLight O env parsed with
  | .ok lrtd => some lrtd.1.variants
  | .error _ => none

/-- The whole of `transcribe_audio` (lines 106-282): initial request and
parse, the pipeline, and the exception handlers of lines 277-282 which wrap
a decode error as a typed `ValueError` and re-raise everything else. -/
def transcribe_audio (O : Oracles) (env : SessionEnv) : Except PyErr Outcome :=
  Except.mapError wrapJsonError
    (match (request_strict_variants O 0 (some env.sessionId)).1 with
     | .error e => .error e
     | .ok pr => transcribeFromParsed O env pr.1)

/-! ## Custom-transform diagnostics (`index.py` lines 85-104)

`analyze_custom_output` uses three regex heuristics.  The texts it sees are
model outputs; the regex classes `\s` and `\w` are the `re` module's Unicode
classes.  `\s` coincides with `str.isspace`, modelled by `isPySpace`; `\w`
is alphanumeric-or-underscore, modelled here over its ASCII extent. -/

/-- A regex `\w` word character (alphanumeric or underscore). -/
def isWordChar (c : Char) : Bool := c.isAlphanum || c = '_'

/-- Counting state machine for `re.findall(r"\b\w+\b", s)`: each match of
`\b\w+\b` is a maximal run of word characters, so the count is the number of
maximal runs.  The boolean tracks whether the previous character was a word
character. -/
def countWordsAux : Bool → List Char → Nat
  | _, [] => 0
  | inWord, c :: rest =>
    if isWordChar c then (if inWord then 0 else 1) + countWordsAux true rest
    else countWordsAux false rest

/-- `len(re.findall(r"\b\w+\b", s))` (`index.py` line 87). -/
def countWords (s : List Char) : Nat := countWordsAux false s

/-- Whether a text begins with a `\s` character (the trailing `\s+` of the
list-marker regex needs exactly one such character to succeed). -/
def headIsSpace (s : List Char) : Bool :=
  match s with
  | [] => false
  | c :: _ => isPySpace c

/-- Matching `\s*(?:[-*•]|\d+\.)\s+` at an anchor position (`index.py` line
90): `\s*` consumes the maximal whitespace run (no backtracking can help,
since neither a bullet nor a digit is whitespace), then either a single
bullet character or a maximal digit run followed by a literal dot, then at
least one whitespace character. -/
def matchMarkerAt (s : List Char) : Bool :=
  let t := s.dropWhile isPySpace
  match t with
  | [] => false
  | c :: rest =>
    if c = '-' || c = '*' || c = '•' then headIsSpace rest
    else
      let ds := t.takeWhile Char.isDigit
      if ds.isEmpty then false
      else
        match t.dropWhile Char.isDigit with
        | '.' :: rest2 => headIsSpace rest2
        | _ => false

/-- The `re.MULTILINE` anchor scan: `^` matches after every newline. -/
def scanAnchors : List Char → Bool
  | [] => false
  | c :: rest => (if c = '\n' then matchMarkerAt rest else false) || scanAnchors rest

/-- `bool(re.search(r"^\s*(?:[-*•]|\d+\.)\s+", s, flags=re.MULTILINE))`:
an anchor is the start of the string or any position after a newline. -/
def hasListMarker (s : List Char) : Bool :=
  matchMarkerAt s || scanAnchors s

/-- The diagnostics payload returned by `analyze_custom_output`. -/
structure CustomDiag where
  wordCount : Nat
  violations : List (List Char)

/-- `analyze_custom_output` (`index.py` lines 85-104), with the violation
list built in the source's order. -/
def analyze_custom_output (text : List Char) : CustomDiag :=
  let cleaned := pyStrip text
  let word_count := countWords cleaned
  let has_paragraph_breaks :=
    containsSeq ('\n' :: '\n' :: []) cleaned || decide (0 < cleaned.count '\n')
  let has_list_markers := hasListMarker cleaned
  ⟨word_count,
    (if 120 < word_count then ["word_limit_exceeded".toList] else []) ++
      (if has_paragraph_breaks then ["multiple_paragraphs_detected".toList] else []) ++
      (if has_list_markers then ["list_formatting_detected".toList] else [])⟩

/-! ## Concrete sessions used in the examples -/

/-- An environment with arbitrary concrete session constants. -/
def envTriv : SessionEnv :=
  ⟨"s".toList, "m".toList, "e".toList, "t".toList, "f".toList, "c".toList, 0⟩

/-- Oracles whose model always answers the empty text, whose light-edit
model always fails (falling back to its input), and whose archive backend
succeeds with an empty mapping. -/
def oraclePlain : Oracles :=
  ⟨fun _ => .ok [], fun _ => none, .ok [], "local".toList⟩

/-- Oracles whose model always answers the unparseable text `x`. -/
def oracleParseFail : Oracles :=
  ⟨fun _ => .ok ['x'], fun _ => none, .ok [], "local".toList⟩

/-- A strict-variants mapping holding both fields as empty strings. -/
def dBothEmpty : PyDict :=
  [(originalStrictKey, .str []), (englishStrictKey, .str [])]

/-! ### Theorems -/

@[simp]
theorem exceptBind_ok {α β : Type} (a : α) (f : α → Except PyErr β) :
    (Except.ok a >>= f) = f a := rfl

@[simp]
theorem exceptBind_err {α β : Type} (e : PyErr) (f : α → Except PyErr β) :
    ((Except.error e : Except PyErr α) >>= f) = Except.error e := rfl

theorem dropWhile_dropWhile (p : Char → Bool) (l : List Char) :
    (l.dropWhile p).dropWhile p = l.dropWhile p := by
  induction l with
  | nil => rfl
  | cons c rest ih =>
    by_cases h : p c
    · simp [List.dropWhile_cons, h, ih]
    · simp [List.dropWhile_cons, h]

theorem dropWhile_append (p : Char → Bool) (xs ys : List Char) :
    (xs ++ ys).dropWhile p =
      if xs.dropWhile p = [] then ys.dropWhile p else xs.dropWhile p ++ ys := by
  induction xs with
  | nil => simp
  | cons c rest ih =>
    by_cases h : p c
    · simpa [List.dropWhile_cons, h] using ih
    · simp [List.dropWhile_cons, h]

theorem dropWhile_head_not (p : Char → Bool) (l : List Char) (c : Char) (rest : List Char)
    (h : l.dropWhile p = c :: rest) : p c = false := by
  induction l with
  | nil => simp at h
  | cons a l ih =>
    by_cases ha : p a
    · rw [List.dropWhile_cons, if_pos ha] at h
      exact ih h
    · rw [List.dropWhile_cons, if_neg ha] at h
      cases h
      simpa using ha

theorem dropWhile_suffix_self (p : Char → Bool) (l : List Char) : l.dropWhile p <:+ l := by
  induction l with
  | nil => exact List.suffix_refl []
  | cons a l ih =>
    by_cases ha : p a
    · rw [List.dropWhile_cons, if_pos ha]
      exact ih.trans (List.suffix_cons a l)
    · rw [List.dropWhile_cons, if_neg ha]

theorem pyRStrip_prefix (s : List Char) : pyRStrip s <+: s := by
  rw [pyRStrip]
  have h : s.reverse.dropWhile isPySpace <:+ s.reverse :=
    dropWhile_suffix_self isPySpace s.reverse
  have h2 := (@List.reverse_prefix Char
    (s.reverse.dropWhile isPySpace) s.reverse).mpr h
  rwa [List.reverse_reverse] at h2

theorem pyLStrip_of_head_not_ws (c : Char) (rest : List Char) (h : isPySpace c = false) :
    pyLStrip (c :: rest) = c :: rest := by
  simp [pyLStrip, List.dropWhile_cons, h]

theorem pyLStrip_pyRStrip_of_lstripped (s : List Char) (h : pyLStrip s = s) :
    pyLStrip (pyRStrip s) = pyRStrip s := by
  cases hr : pyRStrip s with
  | nil => simp [pyLStrip]
  | cons d rest2 =>
    obtain ⟨t, ht⟩ := pyRStrip_prefix s
    rw [hr] at ht
    have hs' : s.dropWhile isPySpace = d :: (rest2 ++ t) := by
      rw [show s.dropWhile isPySpace = pyLStrip s from rfl, h, ← ht]
      simp
    have hd := dropWhile_head_not isPySpace s d (rest2 ++ t) hs'
    exact pyLStrip_of_head_not_ws d rest2 hd

theorem pyRStrip_idem (u : List Char) : pyRStrip (pyRStrip u) = pyRStrip u := by
  rw [pyRStrip, pyRStrip, List.reverse_reverse, dropWhile_dropWhile]

theorem pyStrip_idem (s : List Char) : pyStrip (pyStrip s) = pyStrip s := by
  rw [pyStrip, pyStrip]
  rw [pyLStrip_pyRStrip_of_lstripped (pyLStrip s) (dropWhile_dropWhile isPySpace s)]
  exact pyRStrip_idem (pyLStrip s)

theorem head_dropWhile_reverse_dropWhile (p : Char → Bool) (t : List Char) :
    ((t.dropWhile p).reverse.dropWhile p).head? = (t.reverse.dropWhile p).head? := by
  induction t with
  | nil => rfl
  | cons c t ih =>
    by_cases hc : p c
    · rw [List.dropWhile_cons, if_pos hc, ih, List.reverse_cons, dropWhile_append]
      split
      · next he => simp [he, List.dropWhile_cons, hc]
      · next he =>
        cases h2 : t.reverse.dropWhile p with
        | nil => exact absurd h2 he
        | cons a l => simp [h2]
    · rw [List.dropWhile_cons, if_neg hc]

theorem getLast_pyStrip (t : List Char) : (pyStrip t).getLast? = lastNonWsChar t := by
  rw [pyStrip, pyRStrip, lastNonWsChar, List.getLast?_reverse]
  exact head_dropWhile_reverse_dropWhile isPySpace t

theorem pyStrip_eq_nil_of_all_ws (t : List Char) (h : ∀ c ∈ t, isPySpace c = true) :
    pyStrip t = [] := by
  have h1 : pyLStrip t = [] := List.dropWhile_eq_nil_iff.mpr h
  rw [pyStrip, h1]
  rfl

/-- C10: the truncation heuristic `_is_truncated` is invariant under removal
of surrounding whitespace — `_is_truncated(text) = _is_truncated(text.strip())`
for every text — and its 200-character minimum-length threshold is applied to
the stripped length (a truncated verdict forces the stripped text to be at
least `MIN_TRUNCATION_LENGTH` long), not the raw input length. -/
theorem C10_truncation_strip_invariant (text : List Char) :
    is_truncated (pyStrip text) = is_truncated text ∧
    (is_truncated text = true → MIN_TRUNCATION_LENGTH ≤ (pyStrip text).length) := by
  constructor
  · rw [is_truncated, is_truncated, pyStrip_idem]
  · intro h
    by_contra hlt
    rw [Nat.not_le] at hlt
    rw [is_truncated] at h
    by_cases he : pyStrip text = []
    · simp [he] at h
    · simp [he, hlt] at h

/-- C10 witness: the invariance and the stripped-length bound instantiated at
a concrete 201-character input ending in a space. -/
theorem C10_witness :
    is_truncated (pyStrip (List.replicate 200 'a' ++ [' '])) =
      is_truncated (List.replicate 200 'a' ++ [' ']) ∧
    MIN_TRUNCATION_LENGTH ≤ (pyStrip (List.replicate 200 'a' ++ [' '])).length := by
  refine ⟨(C10_truncation_strip_invariant (List.replicate 200 'a' ++ [' '])).1, ?_⟩
  exact (C10_truncation_strip_invariant (List.replicate 200 'a' ++ [' '])).2 (by decide)

/-- C1 counterexample: `199 spaces ++ "a"` has raw length 200 and its last
non-whitespace character `a` is not terminal punctuation, so the claim as
stated demands `_is_truncated = true`; the code strips first (stripped length
1 < 200) and returns `false`. -/
theorem C1_counterexample :
    (List.replicate 199 ' ' ++ ['a']).length = 200 ∧
    lastNonWsChar (List.replicate 199 ' ' ++ ['a']) = some 'a' ∧
    'a' ∉ terminal_chars ∧
    is_truncated (List.replicate 199 ' ' ++ ['a']) = false := by
  refine ⟨by decide, by decide, by decide, by decide⟩

/-- C1 amended: the length thresholds of `_is_truncated` apply to the
*stripped* text.  For every input: whitespace-only (or empty) text gives
`false`; stripped length below 200 gives `false`; and when the stripped
length is at least 200 the result is `true` exactly when the last
non-whitespace character is outside the terminal-punctuation set. -/
theorem C1_amended (text : List Char) :
    ((∀ c ∈ text, isPySpace c = true) → is_truncated text = false) ∧
    ((pyStrip text).length < MIN_TRUNCATION_LENGTH → is_truncated text = false) ∧
    (MIN_TRUNCATION_LENGTH ≤ (pyStrip text).length →
      (is_truncated text = true ↔ ∃ c, lastNonWsChar text = some c ∧ c ∉ terminal_chars)) := by
  refine ⟨?_, ?_, ?_⟩
  · intro h
    simp [is_truncated, pyStrip_eq_nil_of_all_ws text h]
  · intro h
    by_cases he : pyStrip text = []
    · simp [is_truncated, he]
    · simp [is_truncated, he, h]
  · intro h200
    have hne : pyStrip text ≠ [] := by
      intro he
      rw [he] at h200
      simp [MIN_TRUNCATION_LENGTH] at h200
    obtain ⟨l, hl⟩ := Option.isSome_iff_exists.mp (List.getLast?_isSome.mpr hne)
    have hlast : lastNonWsChar text = some l := by rw [← getLast_pyStrip]; exact hl
    by_cases hmem : l ∈ terminal_chars
    · simp [is_truncated, hne, Nat.not_lt.mpr h200, List.getLastD_eq_getLast?, hl, hmem, hlast]
    · simp [is_truncated, hne, Nat.not_lt.mpr h200, List.getLastD_eq_getLast?, hl, hmem, hlast]

/-- C1 witness: the amended characterisation instantiated at 200 letters
`a` (truncated) — hypotheses discharged by evaluation. -/
theorem C1_amended_witness : is_truncated (List.replicate 200 'a') = true := by
  exact ((C1_amended (List.replicate 200 'a')).2.2 (by decide)).mpr
    ⟨'a', by decide, by decide⟩

/-- C2 counterexample: the separator test is `endswith((" ", "\n"))`, not
"ends in whitespace".  With prior value `"a\t"` — which ends in the
whitespace character TAB — and addition `"b"`, the claim demands no inserted
space, but the code inserts one, producing `"a\t b"`. -/
theorem C2_counterexample :
    mergeOne [(originalStrictKey, PyVal.str ['a', '\t'])] originalStrictKey
        [(originalStrictKey, PyVal.str ['b'])] =
      .ok [(originalStrictKey, PyVal.str ['a', '\t', ' ', 'b'])] ∧
    isPySpace '\t' = true := by
  exact ⟨rfl, by decide⟩

/-- C2 amended: the merge step is append-only; an empty or whitespace-only
addition leaves the mapping unchanged, and a non-empty addition appends the
stripped addition to the prior value with exactly one space inserted unless
the prior value is empty or already ends in a space or newline character
(not: any whitespace character). -/
theorem C2_amended (variants : PyDict) (field base add : List Char) (cont : PyDict)
    (hbase : dictGetD variants field (.str []) = .str base)
    (hadd : dictGet cont field = some (.str add)) :
    (pyStrip add = [] → mergeOne variants field cont = .ok variants) ∧
    (pyStrip add ≠ [] →
      mergeOne variants field cont =
        .ok (dictSet variants field (.str (base ++
          (if base = [] ∨ base.getLast? = some ' ' ∨ base.getLast? = some '\n'
            then [] else [' ']) ++ pyStrip add))) ∧
      base.isPrefixOf (base ++
          (if base = [] ∨ base.getLast? = some ' ' ∨ base.getLast? = some '\n'
            then [] else [' ']) ++ pyStrip add) = true) := by
  have hstrip : pyStripVal (pyOrEmptyStr (dictGet cont field)) = .ok (pyStrip add) := by
    rw [hadd]
    by_cases ha : add = []
    · subst ha
      rfl
    · simp [pyOrEmptyStr, pyTruthy, ha, pyStripVal]
  constructor
  · intro h
    simp [mergeOne, hstrip, h]
    rfl
  · intro h
    constructor
    · simp [mergeOne, hstrip, h, hbase, sepAndBase]
    · rw [List.isPrefixOf_iff_prefix, List.append_assoc]
      exact List.prefix_append base _

/-- C2 witness: merging the addition `" y "` into the prior value `"x"`
yields `"x y"` — one separating space, stripped addition appended. -/
theorem C2_witness :
    mergeOne [(originalStrictKey, PyVal.str ['x'])] originalStrictKey
        [(originalStrictKey, PyVal.str [' ', 'y', ' '])] =
      .ok [(originalStrictKey, PyVal.str ['x', ' ', 'y'])] := by
  have h := (C2_amended [(originalStrictKey, PyVal.str ['x'])] originalStrictKey ['x']
      [' ', 'y', ' '] [(originalStrictKey, PyVal.str [' ', 'y', ' '])] rfl rfl).2
      (by decide)
  rw [h.1]
  rfl

/-- C5 counterexample: when both parses fail, the extractor re-raises the
*original* strict-parse decode error itself (`raise exc` at line 369), not a
typed wrapper: the raised value is exactly the parser's error, it is
identical for different session identifiers, and it carries only the
message — the bounded escaped excerpt and the session id go to the log
record alone. -/
theorem C5_counterexample :
    (requestParse "oops".toList (some "s1".toList)).1 =
      .error (.jsonDecodeError (jerrMsg .expectingValue)) ∧
    jsonLoads true (strip_code_fence "oops".toList) = .error .expectingValue ∧
    (requestParse "oops".toList (some "other".toList)).1 =
      (requestParse "oops".toList (some "s1".toList)).1 := by
  exact ⟨rfl, rfl, rfl⟩

/-- C5 amended: when strict parsing fails and the lenient fallback is not
taken or also fails, the extractor logs a record carrying the error message,
the ≤800-character excerpt rendered with escape sequences, and the session
identifier, and re-raises the original decode error itself; the orchestrator
(`transcribe_audio` lines 277-279) then wraps that decode error as a typed
`ValueError` carrying the message (only). -/
theorem C5_amended (raw : List Char) (sid : Option (List Char)) (e : JErr)
    (hstrict : jsonLoads true (strip_code_fence raw) = .error e)
    (hloose : containsSeq "Invalid control character".toList (jerrMsg e) = false ∨
      ∃ e2, jsonLoads false (strip_code_fence raw) = .error e2) :
    requestParse raw sid =
      (.error (.jsonDecodeError (jerrMsg e)),
       some ⟨sid, jerrMsg e, unicodeEscape ((strip_code_fence raw).take 800)⟩) ∧
    ((strip_code_fence raw).take 800).length ≤ 800 ∧
    wrapJsonError (.jsonDecodeError (jerrMsg e)) =
      .valueError ("Failed to parse Gemini response as JSON: ".toList ++ jerrMsg e) := by
  refine ⟨?_, List.length_take_le 800 _, rfl⟩
  rw [requestParse]
  simp only [hstrict]
  by_cases hc : containsSeq "Invalid control character".toList (jerrMsg e) = true
  · rcases hloose with h | ⟨e2, h2⟩
    · rw [h] at hc
      exact absurd hc (by simp)
    · simp only [hc, if_true, h2]
      rfl
  · simp only [Bool.not_eq_true] at hc
    simp only [hc, Bool.false_eq_true, if_false]
    rfl

/-- C5 witness: the amended behaviour instantiated at the unparsable text
`"oops"` and session id `"sess"`. -/
theorem C5_witness :
    requestParse "oops".toList (some "sess".toList) =
      (.error (.jsonDecodeError (jerrMsg .expectingValue)),
       some ⟨some "sess".toList, jerrMsg .expectingValue,
         unicodeEscape ((strip_code_fence "oops".toList).take 800)⟩) := by
  exact (C5_amended "oops".toList (some "sess".toList) .expectingValue rfl
    (Or.inl (by decide))).1

/-- C6 counterexample: for the mapping `X = {"k": "a```b"}` — whose value
contains the fence delimiter — splitting on the delimiter truncates the
serialised payload, so extraction fails instead of round-tripping to `X`. -/
theorem C6_counterexample :
    strip_code_fence (fenceWrap (jsonDumpsFlat [("k".toList, "a```b".toList)])) =
      '{' :: "\"k\": \"a".toList ∧
    (requestParse (fenceWrap (jsonDumpsFlat [("k".toList, "a```b".toList)])) none).1 =
      .error (.jsonDecodeError (jerrMsg .unterminatedString)) := by
  exact ⟨rfl, rfl⟩

theorem hexDigitVal_toHexDigit (d : Nat) (h : d < 16) :
    hexDigitVal (toHexDigit d) = some d := by
  interval_cases d <;> rfl

theorem escString_cons (c : Char) (s : List Char) :
    escString (c :: s) = escapeChar c ++ escString s := rfl

theorem one_le_escapeChar_length (c : Char) : 1 ≤ (escapeChar c).length := by
  rw [escapeChar]
  split_ifs <;>
    simp only [hex4, List.length_cons, List.length_append, List.length_nil] <;> omega

theorem le_escString_length (s : List Char) : s.length ≤ (escString s).length := by
  induction s with
  | nil => simp [escString]
  | cons c s ih =>
    rw [escString_cons, List.length_append, List.length_cons]
    have := one_le_escapeChar_length c
    omega

theorem char_valid_nat (c : Char) :
    c.toNat < 0xD800 ∨ (0xDFFF < c.toNat ∧ c.toNat < 0x110000) := by
  have h := c.valid
  simpa [UInt32.isValidChar, Nat.isValidChar] using h

theorem uniFromHex_toNat (c : Char) : uniFromHex c.toNat = c := by
  rw [uniFromHex, if_pos]
  · exact Char.ofNat_toNat c
  · have h := char_valid_nat c
    rcases h with h | h
    · exact Or.inl h
    · exact Or.inr ⟨h.1, h.2⟩

theorem psb_u_step (strict : Bool) (f : Nat) (h3 h2 h1 h0 : Char) (tail : List Char) :
    parseStringBody strict (f + 1) ('\\' :: 'u' :: h3 :: h2 :: h1 :: h0 :: tail) =
      (match hexDigitVal h3, hexDigitVal h2, hexDigitVal h1, hexDigitVal h0 with
       | some a, some b, some cc, some d =>
         if 0xD800 ≤ a * 4096 + b * 256 + cc * 16 + d ∧
             a * 4096 + b * 256 + cc * 16 + d ≤ 0xDBFF then
           match tail with
           | '\\' :: 'u' :: g3 :: g2 :: g1 :: g0 :: rest4 =>
             (match hexDigitVal g3, hexDigitVal g2, hexDigitVal g1, hexDigitVal g0 with
              | some a2, some b2, some c2, some d2 =>
                if 0xDC00 ≤ a2 * 4096 + b2 * 256 + c2 * 16 + d2 ∧
                    a2 * 4096 + b2 * 256 + c2 * 16 + d2 ≤ 0xDFFF then
                  (parseStringBody strict f rest4).map
                    (fun p =>
                      (Char.ofNat (0x10000 +
                          (a * 4096 + b * 256 + cc * 16 + d - 0xD800) * 0x400 +
                          (a2 * 4096 + b2 * 256 + c2 * 16 + d2 - 0xDC00)) :: p.1, p.2))
                else
                  (parseStringBody strict f ('\\' :: 'u' :: g3 :: g2 :: g1 :: g0 :: rest4)).map
                    (fun p => (uniFromHex (a * 4096 + b * 256 + cc * 16 + d) :: p.1, p.2))
              | _, _, _, _ => .error .invalidUnicodeEscape)
           | _ =>
             (parseStringBody strict f tail).map
               (fun p => (uniFromHex (a * 4096 + b * 256 + cc * 16 + d) :: p.1, p.2))
         else
           (parseStringBody strict f tail).map
             (fun p => (uniFromHex (a * 4096 + b * 256 + cc * 16 + d) :: p.1, p.2))
       | _, _, _, _ => .error .invalidUnicodeEscape) := rfl

theorem psb_u_lone (strict : Bool) (f : Nat) (n : Nat) (tail : List Char)
    (hlt : n < 0x10000) (hns : ¬(0xD800 ≤ n ∧ n ≤ 0xDBFF)) :
    parseStringBody strict (f + 1) ('\\' :: 'u' :: (hex4 n ++ tail)) =
      (parseStringBody strict f tail).map (fun p => (uniFromHex n :: p.1, p.2)) := by
  show parseStringBody strict (f + 1)
      ('\\' :: 'u' :: toHexDigit (n / 4096 % 16) :: toHexDigit (n / 256 % 16) ::
        toHexDigit (n / 16 % 16) :: toHexDigit (n % 16) :: tail) = _
  rw [psb_u_step]
  rw [hexDigitVal_toHexDigit _ (Nat.mod_lt _ (by omega)),
    hexDigitVal_toHexDigit _ (Nat.mod_lt _ (by omega)),
    hexDigitVal_toHexDigit _ (Nat.mod_lt _ (by omega)),
    hexDigitVal_toHexDigit _ (Nat.mod_lt _ (by omega))]
  dsimp only
  rw [show n / 4096 % 16 * 4096 + n / 256 % 16 * 256 + n / 16 % 16 * 16 + n % 16 = n from
    by omega]
  rw [if_neg hns]

theorem psb_u_pair (strict : Bool) (f : Nat) (n m : Nat) (tail : List Char)
    (hn : 0xD800 ≤ n ∧ n ≤ 0xDBFF) (hm : 0xDC00 ≤ m ∧ m ≤ 0xDFFF) :
    parseStringBody strict (f + 1)
        ('\\' :: 'u' :: (hex4 n ++ ('\\' :: 'u' :: (hex4 m ++ tail)))) =
      (parseStringBody strict f tail).map
        (fun p => (Char.ofNat (0x10000 + (n - 0xD800) * 0x400 + (m - 0xDC00)) :: p.1, p.2)) := by
  show parseStringBody strict (f + 1)
      ('\\' :: 'u' :: toHexDigit (n / 4096 % 16) :: toHexDigit (n / 256 % 16) ::
        toHexDigit (n / 16 % 16) :: toHexDigit (n % 16) ::
        ('\\' :: 'u' :: toHexDigit (m / 4096 % 16) :: toHexDigit (m / 256 % 16) ::
          toHexDigit (m / 16 % 16) :: toHexDigit (m % 16) :: tail)) = _
  rw [psb_u_step]
  rw [hexDigitVal_toHexDigit _ (Nat.mod_lt _ (by omega)),
    hexDigitVal_toHexDigit _ (Nat.mod_lt _ (by omega)),
    hexDigitVal_toHexDigit _ (Nat.mod_lt _ (by omega)),
    hexDigitVal_toHexDigit _ (Nat.mod_lt _ (by omega))]
  dsimp only
  rw [show n / 4096 % 16 * 4096 + n / 256 % 16 * 256 + n / 16 % 16 * 16 + n % 16 = n from
    by omega]
  rw [if_pos hn]
  split
  · next g3 g2 g1 g0 rest4 heq =>
      simp only [List.cons.injEq, true_and] at heq
      obtain ⟨h3eq, h2eq, h1eq, h0eq, hteq⟩ := heq
      subst h3eq
      subst h2eq
      subst h1eq
      subst h0eq
      subst hteq
      rw [hexDigitVal_toHexDigit _ (Nat.mod_lt _ (by omega)),
        hexDigitVal_toHexDigit _ (Nat.mod_lt _ (by omega)),
        hexDigitVal_toHexDigit _ (Nat.mod_lt _ (by omega)),
        hexDigitVal_toHexDigit _ (Nat.mod_lt _ (by omega))]
      dsimp only
      rw [show m / 4096 % 16 * 4096 + m / 256 % 16 * 256 + m / 16 % 16 * 16 + m % 16 = m from
        by omega]
      rw [if_pos hm]
  · next hne =>
      exact absurd rfl (hne (toHexDigit (m / 4096 % 16)) (toHexDigit (m / 256 % 16))
        (toHexDigit (m / 16 % 16)) (toHexDigit (m % 16)) tail)

theorem psb_lit_step (strict : Bool) (f : Nat) (c : Char) (tail : List Char)
    (h1 : ¬c = '"') (h2 : ¬c = '\\') (h3 : ¬(strict = true ∧ c.toNat < 0x20)) :
    parseStringBody strict (f + 1) (c :: tail) =
      (parseStringBody strict f tail).map (fun p => (c :: p.1, p.2)) := by
  simp only [parseStringBody]
  rw [if_neg h1, if_neg h2, if_neg h3]

theorem parseStringBody_escape (strict : Bool) (s : List Char) :
    ∀ (fuel : Nat) (rest : List Char), s.length + 1 ≤ fuel →
      parseStringBody strict fuel (escString s ++ '"' :: rest) = .ok (s, rest) := by
  induction s with
  | nil =>
    intro fuel rest hf
    obtain ⟨f, rfl⟩ : ∃ f, fuel = f + 1 := ⟨fuel - 1, by omega⟩
    rfl
  | cons c s ih =>
    intro fuel rest hf
    obtain ⟨f, rfl⟩ : ∃ f, fuel = f + 1 := ⟨fuel - 1, by omega⟩
    have hf' : s.length + 1 ≤ f := by
      simp only [List.length_cons] at hf
      omega
    have hrec := ih f rest hf'
    rw [escString_cons, List.append_assoc]
    by_cases h1 : c = '"'
    · subst h1
      rw [show parseStringBody strict (f + 1)
          (escapeChar '"' ++ (escString s ++ '"' :: rest)) =
        (parseStringBody strict f (escString s ++ '"' :: rest)).map
          (fun p => ('"' :: p.1, p.2)) from rfl, hrec]
      rfl
    · by_cases h2 : c = '\\'
      · subst h2
        rw [show parseStringBody strict (f + 1)
            (escapeChar '\\' ++ (escString s ++ '"' :: rest)) =
          (parseStringBody strict f (escString s ++ '"' :: rest)).map
            (fun p => ('\\' :: p.1, p.2)) from rfl, hrec]
        rfl
      · by_cases h3 : c = '\n'
        · subst h3
          rw [show parseStringBody strict (f + 1)
              (escapeChar '\n' ++ (escString s ++ '"' :: rest)) =
            (parseStringBody strict f (escString s ++ '"' :: rest)).map
              (fun p => ('\n' :: p.1, p.2)) from rfl, hrec]
          rfl
        · by_cases h4 : c = '\r'
          · subst h4
            rw [show parseStringBody strict (f + 1)
                (escapeChar '\r' ++ (escString s ++ '"' :: rest)) =
              (parseStringBody strict f (escString s ++ '"' :: rest)).map
                (fun p => ('\r' :: p.1, p.2)) from rfl, hrec]
            rfl
          · by_cases h5 : c = '\t'
            · subst h5
              rw [show parseStringBody strict (f + 1)
                  (escapeChar '\t' ++ (escString s ++ '"' :: rest)) =
                (parseStringBody strict f (escString s ++ '"' :: rest)).map
                  (fun p => ('\t' :: p.1, p.2)) from rfl, hrec]
              rfl
            · by_cases h6 : c.toNat = 8
              · have hc : c = Char.ofNat 8 := by
                  rw [← h6, Char.ofNat_toNat]
                subst hc
                rw [show parseStringBody strict (f + 1)
                    (escapeChar (Char.ofNat 8) ++ (escString s ++ '"' :: rest)) =
                  (parseStringBody strict f (escString s ++ '"' :: rest)).map
                    (fun p => (Char.ofNat 8 :: p.1, p.2)) from rfl, hrec]
                rfl
              · by_cases h7 : c.toNat = 12
                · have hc : c = Char.ofNat 12 := by
                    rw [← h7, Char.ofNat_toNat]
                  subst hc
                  rw [show parseStringBody strict (f + 1)
                      (escapeChar (Char.ofNat 12) ++ (escString s ++ '"' :: rest)) =
                    (parseStringBody strict f (escString s ++ '"' :: rest)).map
                      (fun p => (Char.ofNat 12 :: p.1, p.2)) from rfl, hrec]
                  rfl
                · by_cases h8 : c.toNat < 0x20
                  · have hesc : escapeChar c = '\\' :: 'u' :: hex4 c.toNat := by
                      rw [escapeChar]
                      simp [h1, h2, h3, h4, h5, h6, h7, h8]
                    rw [hesc, List.cons_append, List.cons_append]
                    rw [psb_u_lone strict f c.toNat (escString s ++ '"' :: rest)
                      (by omega) (by omega), hrec, uniFromHex_toNat]
                    rfl
                  · by_cases h9 : c.toNat < 0x7f
                    · have hesc : escapeChar c = [c] := by
                        rw [escapeChar]
                        simp [h1, h2, h3, h4, h5, h6, h7, h8, h9]
                      rw [hesc, List.cons_append, List.nil_append]
                      rw [psb_lit_step strict f c _ h1 h2 (by
                        rintro ⟨-, hlt⟩
                        exact h8 hlt), hrec]
                      rfl
                    · by_cases h10 : c.toNat < 0x10000
                      · have hval := char_valid_nat c
                        have hesc : escapeChar c = '\\' :: 'u' :: hex4 c.toNat := by
                          rw [escapeChar]
                          simp [h1, h2, h3, h4, h5, h6, h7, h8, h9, h10]
                        rw [hesc, List.cons_append, List.cons_append]
                        rw [psb_u_lone strict f c.toNat (escString s ++ '"' :: rest)
                          (by omega) (by omega), hrec, uniFromHex_toNat]
                        rfl
                      · have hval := char_valid_nat c
                        have hesc : escapeChar c =
                            '\\' :: 'u' :: hex4 (0xD800 + (c.toNat - 0x10000) / 0x400) ++
                              ('\\' :: 'u' :: hex4 (0xDC00 + (c.toNat - 0x10000) % 0x400)) := by
                          rw [escapeChar]
                          simp [h1, h2, h3, h4, h5, h6, h7, h8, h9, h10]
                        rw [hesc]
                        rw [show ('\\' :: 'u' :: hex4 (0xD800 + (c.toNat - 0x10000) / 0x400) ++
                            ('\\' :: 'u' :: hex4 (0xDC00 + (c.toNat - 0x10000) % 0x400))) ++
                            (escString s ++ '"' :: rest) =
                          '\\' :: 'u' :: (hex4 (0xD800 + (c.toNat - 0x10000) / 0x400) ++
                            ('\\' :: 'u' :: (hex4 (0xDC00 + (c.toNat - 0x10000) % 0x400) ++
                              (escString s ++ '"' :: rest)))) from by
                          simp [List.cons_append, List.append_assoc]]
                        rw [psb_u_pair strict f _ _ (escString s ++ '"' :: rest)
                          ⟨by omega, by
                            have : (c.toNat - 0x10000) / 0x400 < 0x400 := by omega
                            omega⟩
                          ⟨by omega, by
                            have : (c.toNat - 0x10000) % 0x400 < 0x400 :=
                              Nat.mod_lt _ (by omega)
                            omega⟩, hrec]
                        rw [show 0x10000 +
                            (0xD800 + (c.toNat - 0x10000) / 0x400 - 0xD800) * 0x400 +
                            (0xDC00 + (c.toNat - 0x10000) % 0x400 - 0xDC00) = c.toNat from by
                          omega]
                        rw [Char.ofNat_toNat]
                        rfl

theorem parseValue_dumpsStr (strict : Bool) (v rest : List Char) (f : Nat) :
    parseValue strict (f + 1) (dumpsStr v ++ rest) = .ok (.str v, rest) := by
  rw [show dumpsStr v ++ rest = '"' :: (escString v ++ '"' :: rest) from by
    simp [dumpsStr]]
  rw [show parseValue strict (f + 1) ('"' :: (escString v ++ '"' :: rest)) =
      (parseStringBody strict ((escString v ++ '"' :: rest).length + 1)
        (escString v ++ '"' :: rest)).map (fun p => (PyVal.str p.1, p.2)) from rfl]
  rw [parseStringBody_escape strict v _ rest (by
    have := le_escString_length v
    simp only [List.length_append, List.length_cons]
    omega)]
  rfl

theorem parseValue_dumpsStr_space (strict : Bool) (v rest : List Char) (f : Nat) :
    parseValue strict (f + 1) (' ' :: (dumpsStr v ++ rest)) = .ok (.str v, rest) := by
  rw [show (' ' :: (dumpsStr v ++ rest) : List Char) =
      ' ' :: '"' :: (escString v ++ '"' :: rest) from by simp [dumpsStr]]
  rw [show parseValue strict (f + 1) (' ' :: '"' :: (escString v ++ '"' :: rest)) =
      (parseStringBody strict ((escString v ++ '"' :: rest).length + 1)
        (escString v ++ '"' :: rest)).map (fun p => (PyVal.str p.1, p.2)) from rfl]
  rw [parseStringBody_escape strict v _ rest (by
    have := le_escString_length v
    simp only [List.length_append, List.length_cons]
    omega)]
  rfl

theorem parseMembers_step (strict : Bool) (f : Nat) (k : List Char) (r1tail : List Char)
    (acc : PyDict) :
    parseMembers strict (f + 1) (escString k ++ '"' :: r1tail) acc =
      (match skipWs r1tail with
       | ':' :: r2 =>
         (match parseValue strict f r2 with
          | .error e => .error e
          | .ok (v, r3) =>
            match skipWs r3 with
            | ',' :: r4 =>
              (match skipWs r4 with
               | '"' :: r5 => parseMembers strict f r5 (dictSet acc k v)
               | _ => .error .expectingPropertyName)
            | '}' :: r4 => .ok (.dict (dictSet acc k v), r4)
            | _ => .error .expectingCommaDelimiter)
       | _ => .error .expectingColonDelimiter) := by
  simp only [parseMembers]
  rw [parseStringBody_escape strict k _ r1tail (by
    have := le_escString_length k
    simp only [List.length_append, List.length_cons]
    omega)]

theorem parseMembers_step2 (strict : Bool) (f : Nat) (k v : List Char) (tail2 : List Char)
    (acc : PyDict) :
    parseMembers strict (f + 1) (escString k ++ '"' :: ':' :: ' ' :: dumpsStr v ++ tail2) acc =
      (match parseValue strict f (' ' :: (dumpsStr v ++ tail2)) with
       | .error e => .error e
       | .ok (w, r3) =>
         match skipWs r3 with
         | ',' :: r4 =>
           (match skipWs r4 with
            | '"' :: r5 => parseMembers strict f r5 (dictSet acc k w)
            | _ => .error .expectingPropertyName)
         | '}' :: r4 => .ok (.dict (dictSet acc k w), r4)
         | _ => .error .expectingCommaDelimiter) := by
  rw [show (escString k ++ '"' :: ':' :: ' ' :: dumpsStr v ++ tail2 : List Char) =
      escString k ++ '"' :: (':' :: ' ' :: (dumpsStr v ++ tail2)) from by simp]
  rw [parseMembers_step]
  rfl

theorem parseMembers_dumps (strict : Bool) (kvs : List (List Char × List Char)) :
    ∀ (f : Nat) (k v : List Char) (acc : PyDict) (rest : List Char),
      kvs.length + 2 ≤ f →
      parseMembers strict f
          (escString k ++ '"' :: ':' :: ' ' :: dumpsStr v ++ dumpsMembersFrom kvs rest) acc =
        .ok (.dict (List.foldl (fun a p => dictSet a p.1 (.str p.2))
          (dictSet acc k (.str v)) kvs), rest) := by
  induction kvs with
  | nil =>
    intro f k v acc rest hf
    obtain ⟨f1, rfl⟩ : ∃ f1, f = f1 + 1 := ⟨f - 1, by omega⟩
    rw [parseMembers_step2]
    obtain ⟨f2, rfl⟩ : ∃ f2, f1 = f2 + 1 := ⟨f1 - 1, by omega⟩
    rw [show dumpsMembersFrom [] rest = '}' :: rest from rfl]
    rw [parseValue_dumpsStr_space strict v ('}' :: rest) f2]
    rfl
  | cons kv kvs ih =>
    intro f k v acc rest hf
    obtain ⟨f1, rfl⟩ : ∃ f1, f = f1 + 1 := ⟨f - 1, by omega⟩
    rw [parseMembers_step2]
    obtain ⟨f2, rfl⟩ : ∃ f2, f1 = f2 + 1 := ⟨f1 - 1, by omega⟩
    obtain ⟨k2, v2⟩ := kv
    rw [show dumpsMembersFrom ((k2, v2) :: kvs) rest =
      ',' :: ' ' :: '"' ::
        (escString k2 ++ '"' :: ':' :: ' ' :: dumpsStr v2 ++ dumpsMembersFrom kvs rest)
      from rfl]
    rw [parseValue_dumpsStr_space strict v _ f2]
    show parseMembers strict (f2 + 1)
        (escString k2 ++ '"' :: ':' :: ' ' :: dumpsStr v2 ++ dumpsMembersFrom kvs rest)
        (dictSet acc k (PyVal.str v)) = _
    rw [ih (f2 + 1) k2 v2 (dictSet acc k (PyVal.str v)) rest (by
      simp only [List.length_cons] at hf
      omega)]
    rfl

theorem dumpsPairs_membersFrom (kvs : List (List Char × List Char)) :
    ∀ (k v rest : List Char),
      dumpsPairs ((k, v) :: kvs) ++ '}' :: rest =
        '"' :: (escString k ++ '"' :: ':' :: ' ' :: dumpsStr v ++ dumpsMembersFrom kvs rest) := by
  induction kvs with
  | nil =>
    intro k v rest
    simp [dumpsPairs, dumpsStr, dumpsMembersFrom, List.append_assoc]
  | cons kv kvs ih =>
    intro k v rest
    obtain ⟨k2, v2⟩ := kv
    have h := ih k2 v2 rest
    rw [show dumpsPairs ((k, v) :: (k2, v2) :: kvs) =
        dumpsStr k ++ ':' :: ' ' :: dumpsStr v ++ ',' :: ' ' :: dumpsPairs ((k2, v2) :: kvs)
      from rfl]
    rw [show dumpsMembersFrom ((k2, v2) :: kvs) rest = ',' :: ' ' :: '"' ::
        (escString k2 ++ '"' :: ':' :: ' ' :: dumpsStr v2 ++ dumpsMembersFrom kvs rest)
      from rfl]
    rw [← h]
    simp [dumpsStr, List.append_assoc]

theorem length_le_dumpsPairs (kvs : List (List Char × List Char)) :
    kvs.length ≤ (dumpsPairs kvs).length := by
  induction kvs with
  | nil => simp [dumpsPairs]
  | cons kv kvs ih =>
    obtain ⟨k, v⟩ := kv
    cases kvs with
    | nil =>
      simp [dumpsPairs, dumpsStr, List.length_append]
    | cons kv2 kvs2 =>
      rw [show dumpsPairs ((k, v) :: kv2 :: kvs2) =
          dumpsStr k ++ ':' :: ' ' :: dumpsStr v ++ ',' :: ' ' :: dumpsPairs (kv2 :: kvs2)
        from rfl]
      simp only [List.length_append, List.length_cons] at *
      omega

theorem parseValue_dumpsFlat (strict : Bool) (X : List (List Char × List Char)) (f : Nat)
    (hf : X.length + 2 ≤ f + 1) :
    parseValue strict (f + 1) (jsonDumpsFlat X) =
      .ok (.dict (List.foldl (fun a p => dictSet a p.1 (PyVal.str p.2)) [] X), []) := by
  cases X with
  | nil => rfl
  | cons kv X2 =>
    obtain ⟨k, v⟩ := kv
    rw [show jsonDumpsFlat ((k, v) :: X2) = '{' :: (dumpsPairs ((k, v) :: X2) ++ '}' :: [])
      from by simp [jsonDumpsFlat]]
    rw [dumpsPairs_membersFrom X2 k v []]
    rw [show parseValue strict (f + 1) ('{' :: '"' ::
        (escString k ++ '"' :: ':' :: ' ' :: dumpsStr v ++ dumpsMembersFrom X2 [])) =
      parseMembers strict f
        (escString k ++ '"' :: ':' :: ' ' :: dumpsStr v ++ dumpsMembersFrom X2 []) []
      from rfl]
    rw [parseMembers_dumps strict X2 f k v [] [] (by
      simp only [List.length_cons] at hf
      omega)]
    rfl

theorem jsonLoads_dumpsFlat (strict : Bool) (X : List (List Char × List Char)) :
    jsonLoads strict (jsonDumpsFlat X) =
      .ok (.dict (List.foldl (fun a p => dictSet a p.1 (PyVal.str p.2)) [] X)) := by
  have hlen : X.length + 2 ≤ (jsonDumpsFlat X).length + 1 := by
    have h1 := length_le_dumpsPairs X
    simp only [jsonDumpsFlat, List.length_cons, List.length_append]
    omega
  simp only [jsonLoads]
  rw [show (jsonDumpsFlat X).length + 1 = (jsonDumpsFlat X).length + 1 from rfl]
  rw [parseValue_dumpsFlat strict X (jsonDumpsFlat X).length (by omega)]
  rfl

theorem dictSet_append_of_not_mem (acc : PyDict) (k : List Char) (v : PyVal)
    (h : ¬ k ∈ acc.map Prod.fst) : dictSet acc k v = acc ++ [(k, v)] := by
  induction acc with
  | nil => rfl
  | cons p acc ih =>
    obtain ⟨k2, v2⟩ := p
    simp only [List.map_cons, List.mem_cons] at h
    push_neg at h
    rw [show dictSet ((k2, v2) :: acc) k v =
        if k2 = k then (k2, v) :: acc else (k2, v2) :: dictSet acc k v from rfl]
    rw [if_neg (fun he => h.1 he.symm)]
    rw [ih h.2]
    simp

theorem foldl_dictSet_nodup (kvs : List (List Char × List Char)) :
    ∀ acc : PyDict,
      (List.map Prod.fst acc ++ List.map Prod.fst kvs).Nodup →
      List.foldl (fun a p => dictSet a p.1 (PyVal.str p.2)) acc kvs =
        acc ++ kvs.map (fun p => (p.1, PyVal.str p.2)) := by
  induction kvs with
  | nil =>
    intro acc h
    simp
  | cons kv kvs ih =>
    intro acc h
    obtain ⟨k, v⟩ := kv
    rw [List.foldl_cons]
    have hk : ¬ k ∈ acc.map Prod.fst := by
      intro hmem
      have hd := (List.nodup_append.mp h).2.2
      exact hd hmem (by simp)
    dsimp only
    rw [dictSet_append_of_not_mem acc k (PyVal.str v) hk]
    rw [ih (acc ++ [(k, PyVal.str v)]) (by
      simp only [List.map_append, List.map_cons, List.map_nil] at h ⊢
      simpa [List.append_assoc] using h)]
    simp

theorem splitTicks_cons_of_ne (c : Char) (rest : List Char)
    (h : tickSeq.isPrefixOf (c :: rest) = false) :
    splitTicks (c :: rest) = consHead c (splitTicks rest) := by
  rw [splitTicks.eq_def]
  split
  · next rest3 heq =>
    rw [heq] at h
    simp [tickSeq, List.isPrefixOf] at h
  · next x c2 rest2 hne heq =>
    have h1 : c2 = c ∧ rest2 = rest := by
      simp only [List.cons.injEq] at heq
      exact ⟨heq.1.symm, heq.2.symm⟩
    rw [h1.1, h1.2]
  · next x heq =>
    exact absurd heq (by simp)

theorem pyRStrip_of_last_not_ws (s : List Char) (c : Char) (h : s.getLast? = some c)
    (hc : isPySpace c = false) : pyRStrip s = s := by
  rw [pyRStrip]
  cases hr : s.reverse with
  | nil =>
    have hs : s = [] := by
      have := congrArg List.reverse hr
      simpa using this
    rw [hs] at h
    simp at h
  | cons d t =>
    have hd : d = c := by
      have h2 := List.head?_reverse s
      rw [hr] at h2
      rw [h] at h2
      simpa using h2
    subst hd
    rw [List.dropWhile_cons, hc]
    simp only [Bool.false_eq_true, if_false]
    rw [← hr, List.reverse_reverse]

theorem pyStrip_eq_self_of_ends (s : List Char) (c1 c2 : Char) (h1 : s.head? = some c1)
    (hc1 : isPySpace c1 = false) (h2 : s.getLast? = some c2) (hc2 : isPySpace c2 = false) :
    pyStrip s = s := by
  cases s with
  | nil => simp at h1
  | cons a t =>
    have ha : a = c1 := by simpa using h1
    rw [pyStrip, show pyLStrip (a :: t) = a :: t from
      pyLStrip_of_head_not_ws a t (ha ▸ hc1)]
    exact pyRStrip_of_last_not_ws (a :: t) c2 h2 hc2

theorem pyRStrip_append_ws (D : List Char) (c2 : Char) (h2 : D.getLast? = some c2)
    (hc2 : isPySpace c2 = false) (w : Char) (hw : isPySpace w = true) :
    pyRStrip (D ++ [w]) = D := by
  rw [pyRStrip, List.reverse_append]
  simp only [List.reverse_cons, List.reverse_nil, List.nil_append, List.singleton_append]
  rw [List.dropWhile_cons, hw]
  simp only [if_true]
  cases hr : D.reverse with
  | nil =>
    have hs : D = [] := by
      have := congrArg List.reverse hr
      simpa using this
    rw [hs] at h2
    simp at h2
  | cons d t =>
    have hd : d = c2 := by
      have hh := List.head?_reverse D
      rw [hr] at hh
      rw [h2] at hh
      simpa using hh
    subst hd
    rw [List.dropWhile_cons, hc2]
    simp only [Bool.false_eq_true, if_false]
    rw [← hr, List.reverse_reverse]

theorem isPrefixOf_first3 (a b c : Char) (z1 z2 : List Char) :
    tickSeq.isPrefixOf (a :: b :: c :: z1) = tickSeq.isPrefixOf (a :: b :: c :: z2) := by
  simp [tickSeq, List.isPrefixOf]

theorem containsSeq_append_nontick (wd : List Char) :
    ∀ (c : Char), ¬c = '`' → containsSeq tickSeq wd = false →
      containsSeq tickSeq (wd ++ [c]) = false := by
  induction wd with
  | nil =>
    intro c hc h
    have hcc : (('`' : Char) == c) = false :=
      beq_eq_false_iff_ne.mpr (fun he => hc he.symm)
    simp [containsSeq, tickSeq, List.isPrefixOf, hcc]
  | cons d D ih =>
    intro c hc h
    simp only [containsSeq, Bool.or_eq_false_iff] at h
    rw [List.cons_append]
    simp only [containsSeq, Bool.or_eq_false_iff]
    refine ⟨?_, ih c hc h.2⟩
    cases D with
    | nil =>
      have hcc : (('`' : Char) == c) = false :=
        beq_eq_false_iff_ne.mpr (fun he => hc he.symm)
      simp [tickSeq, List.isPrefixOf, hcc]
    | cons d2 D2 =>
      cases D2 with
      | nil =>
        have hcc : (('`' : Char) == c) = false :=
          beq_eq_false_iff_ne.mpr (fun he => hc he.symm)
        simp [tickSeq, List.isPrefixOf, hcc]
      | cons d3 D3 =>
        have e := isPrefixOf_first3 d d2 d3 (D3 ++ [c]) D3
        rw [show ((d2 :: d3 :: D3 : List Char) ++ [c]) = d2 :: d3 :: (D3 ++ [c]) from by simp]
        rw [e]
        exact h.1

theorem splitTicks_concat (M : List Char) :
    ∀ (tail : List Char), containsSeq tickSeq M = false → M.getLast? ≠ some '`' →
      splitTicks (M ++ '`' :: '`' :: '`' :: tail) = M :: splitTicks tail := by
  induction M with
  | nil =>
    intro tail h1 h2
    rfl
  | cons c M ih =>
    intro tail h1 h2
    have h1' : tickSeq.isPrefixOf (c :: M) = false ∧ containsSeq tickSeq M = false := by
      simpa only [containsSeq, Bool.or_eq_false_iff] using h1
    have hpre : tickSeq.isPrefixOf (c :: (M ++ '`' :: '`' :: '`' :: tail)) = false := by
      cases M with
      | nil =>
        have hc : ¬ c = '`' := by
          intro he
          exact h2 (by rw [he]; rfl)
        have hcc : (('`' : Char) == c) = false :=
          beq_eq_false_iff_ne.mpr (fun he => hc he.symm)
        simp [tickSeq, List.isPrefixOf, hcc]
      | cons c2 M2 =>
        cases M2 with
        | nil =>
          have hc2 : ¬ c2 = '`' := by
            intro he
            exact h2 (by rw [he]; rfl)
          have hcc2 : (('`' : Char) == c2) = false :=
            beq_eq_false_iff_ne.mpr (fun he => hc2 he.symm)
          simp [tickSeq, List.isPrefixOf, hcc2]
        | cons c3 M3 =>
          have e := isPrefixOf_first3 c c2 c3 (M3 ++ '`' :: '`' :: '`' :: tail) M3
          rw [show ((c2 :: c3 :: M3 : List Char) ++ '`' :: '`' :: '`' :: tail) =
            c2 :: c3 :: (M3 ++ '`' :: '`' :: '`' :: tail) from by simp]
          rw [e]
          exact h1'.1
    rw [show ((c :: M) ++ '`' :: '`' :: '`' :: tail : List Char) =
      c :: (M ++ '`' :: '`' :: '`' :: tail) from rfl]
    rw [splitTicks_cons_of_ne c _ hpre]
    rw [ih tail h1'.2 (by
      cases M with
      | nil => simp
      | cons c2 M2 =>
        intro hx
        exact h2 (by rw [List.getLast?_cons_cons]; exact hx))]
    rfl

theorem strip_code_fence_wrap (D : List Char) (hD : containsSeq tickSeq D = false)
    (hhead : D.head? = some '{') (hlast : D.getLast? = some '}') :
    strip_code_fence (fenceWrap D) = D := by
  have hM1 : containsSeq tickSeq (D ++ ['\n']) = false :=
    containsSeq_append_nontick D '\n' (by decide) hD
  have hform : fenceWrap D =
      '`' :: '`' :: '`' ::
        (('j' :: 's' :: 'o' :: 'n' :: '\n' :: (D ++ ['\n'])) ++ '`' :: '`' :: '`' :: []) := by
    show "```json\n".toList ++ D ++ "\n```".toList = _
    rw [show "```json\n".toList = ['`', '`', '`', 'j', 's', 'o', 'n', '\n'] from rfl,
      show "\n```".toList = ['\n', '`', '`', '`'] from rfl]
    simp [List.append_assoc]
  have hA : pyStrip (fenceWrap D) = fenceWrap D := by
    apply pyStrip_eq_self_of_ends _ '`' '`'
    · rw [hform]
      rfl
    · decide
    · rw [show fenceWrap D = (("```json\n".toList ++ D) ++ ['\n', '`', '`']) ++ ['`'] from by
        show "```json\n".toList ++ D ++ "\n```".toList = _
        rw [show "\n```".toList = ['\n', '`', '`', '`'] from rfl]
        simp [List.append_assoc]]
      exact List.getLast?_concat _
    · decide
  have hja : (('`' : Char) == 'j') = false := by decide
  have hMfull : containsSeq tickSeq
      ('j' :: 's' :: 'o' :: 'n' :: '\n' :: (D ++ ['\n'])) = false := by
    have hsa : (('`' : Char) == 's') = false := by decide
    have hoa : (('`' : Char) == 'o') = false := by decide
    have hna : (('`' : Char) == 'n') = false := by decide
    have hnl : (('`' : Char) == '\n') = false := by decide
    simp [containsSeq, tickSeq, List.isPrefixOf, hja, hsa, hoa, hna, hnl]
    simpa [tickSeq] using hM1
  have hMlast : ('j' :: 's' :: 'o' :: 'n' :: '\n' :: (D ++ ['\n'])).getLast? = some '\n' := by
    rw [show ('j' :: 's' :: 'o' :: 'n' :: '\n' :: (D ++ ['\n']) : List Char) =
      ('j' :: 's' :: 'o' :: 'n' :: '\n' :: D) ++ ['\n'] from by simp]
    exact List.getLast?_concat _
  have hsplit : splitTicks (fenceWrap D) =
      [[], 'j' :: 's' :: 'o' :: 'n' :: '\n' :: (D ++ ['\n']), []] := by
    rw [hform]
    rw [show splitTicks ('`' :: '`' :: '`' ::
        (('j' :: 's' :: 'o' :: 'n' :: '\n' :: (D ++ ['\n'])) ++ '`' :: '`' :: '`' :: [])) =
      [] :: splitTicks
        (('j' :: 's' :: 'o' :: 'n' :: '\n' :: (D ++ ['\n'])) ++ '`' :: '`' :: '`' :: [])
      from rfl]
    rw [splitTicks_concat _ [] hMfull (by
      rw [hMlast]
      simp)]
    rfl
  have hfinal : pyStrip ('\n' :: (D ++ ['\n'])) = D := by
    rw [pyStrip]
    rw [show pyLStrip ('\n' :: (D ++ ['\n'])) = List.dropWhile isPySpace (D ++ ['\n'])
      from rfl]
    cases D with
    | nil => simp at hhead
    | cons a D2 =>
      have ha : a = '{' := by simpa using hhead
      rw [show List.dropWhile isPySpace ((a :: D2) ++ ['\n']) = (a :: D2) ++ ['\n'] from by
        rw [List.cons_append, List.dropWhile_cons,
          show isPySpace a = false from by rw [ha]; decide]
        simp]
      exact pyRStrip_append_ws (a :: D2) '}' hlast (by decide) '\n' (by decide)
  simp only [strip_code_fence]
  rw [hA]
  rw [show tickSeq.isPrefixOf (fenceWrap D) = true from by
    rw [hform]
    simp [tickSeq, List.isPrefixOf]]
  rw [hsplit]
  simp only [List.length_cons, List.length_nil, List.getD, List.get?, Option.getD_some]
  rw [if_pos (by norm_num)]
  rw [show ("json".toList.isPrefixOf
      (('j' :: 's' :: 'o' :: 'n' :: '\n' :: (D ++ ['\n']) : List Char))) = true from by
    simp [List.isPrefixOf]]
  rw [if_pos rfl]
  rw [show (('j' :: 's' :: 'o' :: 'n' :: '\n' :: (D ++ ['\n']) : List Char)).drop 4 =
    '\n' :: (D ++ ['\n']) from rfl]
  exact hfinal

/-- C6 amended: the extractor round-trips every mapping with string values
*whose serialisation does not contain the fence delimiter* ``` — fence
stripping recovers exactly the serialised payload and strict parsing returns
the mapping (its keys pairwise distinct, as in any mapping). -/
theorem C6_amended (X : List (List Char × List Char)) (sid : Option (List Char))
    (hnd : (X.map Prod.fst).Nodup)
    (ht : containsSeq tickSeq (jsonDumpsFlat X) = false) :
    requestParse (fenceWrap (jsonDumpsFlat X)) sid =
      (.ok (.dict (X.map (fun p => (p.1, PyVal.str p.2)))), none) := by
  have hhead : (jsonDumpsFlat X).head? = some '{' := rfl
  have hlast : (jsonDumpsFlat X).getLast? = some '}' := by
    rw [show jsonDumpsFlat X = ('{' :: dumpsPairs X) ++ ['}'] from by simp [jsonDumpsFlat]]
    exact List.getLast?_concat _
  have hs := strip_code_fence_wrap (jsonDumpsFlat X) ht hhead hlast
  simp only [requestParse]
  rw [hs]
  rw [jsonLoads_dumpsFlat true X]
  rw [foldl_dictSet_nodup X [] (by simpa using hnd)]
  rfl

/-- C6 witness: the amended round trip instantiated at the concrete mapping
with key `a` and value `b`. -/
theorem C6_witness :
    requestParse (fenceWrap (jsonDumpsFlat [("a".toList, "b".toList)])) none =
      (.ok (.dict [("a".toList, PyVal.str "b".toList)]), none) := by
  exact C6_amended [("a".toList, "b".toList)] none (by decide) (by decide)

/-! ### Archive descriptor shape (`archive.py` lines 254-287) -/

theorem dictGet_append (d1 d2 : PyDict) (k : List Char) :
    dictGet (d1 ++ d2) k = (dictGet d1 k).or (dictGet d2 k) := by
  induction d1 with
  | nil => simp [dictGet]
  | cons p rest ih =>
    obtain ⟨k2, v⟩ := p
    by_cases h : k2 = k
    · simp [dictGet, h]
    · simp [dictGet, h, ih]

theorem dictGet_setdefault_self (d : PyDict) (k : List Char) (v : PyVal) :
    dictGet (dictSetdefault d k v) k = some ((dictGet d k).getD v) := by
  unfold dictSetdefault
  by_cases h : (dictGet d k).isSome
  · rw [if_pos h]
    obtain ⟨x, hx⟩ := Option.isSome_iff_exists.mp h
    rw [hx]
    rfl
  · rw [if_neg h]
    rw [dictGet_append]
    rw [Option.not_isSome_iff_eq_none.mp h]
    simp [dictGet]

theorem dictGet_setdefault_ne (d : PyDict) (k k2 : List Char) (v : PyVal)
    (hne : k ≠ k2) :
    dictGet (dictSetdefault d k v) k2 = dictGet d k2 := by
  unfold dictSetdefault
  by_cases h : (dictGet d k).isSome
  · rw [if_pos h]
  · rw [if_neg h, dictGet_append]
    simp [dictGet, hne]

/-- C4 counterexample: a backend failure whose exception renders to the
empty string (Python's `str(RuntimeError())` is `""`) yields a descriptor
whose `error` field is the *empty* string — the claim's "non-empty error
field" fails, though nothing propagates. -/
theorem C4_counterexample :
    dictGet (persist_session "local".toList (.error (.exc []))) "error".toList =
      some (.str []) := rfl

/-- C4 amended: for every backend name and every exception raised by
`store`, `persist_session` returns (never raises) a descriptor carrying
`enabled = False`, the backend's name, and an `error` field equal to
`str(exc)` — which is possibly empty. -/
theorem C4_amended (name : List Char) (e : PyErr) :
    dictGet (persist_session name (.error e)) "enabled".toList = some (.bool false)
    ∧ dictGet (persist_session name (.error e)) "backend".toList = some (.str name)
    ∧ dictGet (persist_session name (.error e)) "error".toList =
        some (.str (pyErrStr e)) := by
  refine ⟨rfl, ?_, ?_⟩ <;> simp [persist_session, dictGet]

/-- C9: for every mapping a backend's `store` returns, the descriptor
`persist_session` yields always carries a `backend` key (the stored one, or
the configured backend's name when absent) and an `enabled` key (the stored
one, or — when absent — whether the post-default backend name differs from
`"none"`). -/
theorem C9_descriptor_shape (name : List Char) (r : PyDict) :
    dictGet (persist_session name (.ok r)) "backend".toList =
      some ((dictGet r "backend".toList).getD (.str name))
    ∧ dictGet (persist_session name (.ok r)) "enabled".toList =
      some ((dictGet r "enabled".toList).getD
        (.bool (pyNeNoneStr ((dictGet r "backend".toList).getD (.str name))))) := by
  have hne : ("backend".toList : List Char) ≠ "enabled".toList := by decide
  have h1 : dictGet (dictSetdefault r "backend".toList (.str name)) "backend".toList =
      some ((dictGet r "backend".toList).getD (.str name)) :=
    dictGet_setdefault_self r _ _
  constructor
  · show dictGet (dictSetdefault _ "enabled".toList _) "backend".toList = _
    rw [dictGet_setdefault_ne _ _ _ _ (by decide)]
    exact h1
  · show dictGet (dictSetdefault _ "enabled".toList _) "enabled".toList = _
    rw [dictGet_setdefault_self]
    rw [dictGet_setdefault_ne _ _ _ _ hne]
    simp only [dictGetD]
    rw [h1]
    rfl

/-! ### Custom-transform diagnostics characterisation -/

theorem containsSeq_cons_mem (c : Char) (cs s : List Char)
    (h : containsSeq (c :: cs) s = true) : c ∈ s := by
  induction s with
  | nil => simp [containsSeq, List.isEmpty] at h
  | cons d rest ih =>
    rw [containsSeq, Bool.or_eq_true] at h
    rcases h with h | h
    · rw [List.isPrefixOf, Bool.and_eq_true] at h
      have : c = d := by simpa using h.1
      simp [this]
    · exact List.mem_cons_of_mem _ (ih h)

theorem scanAnchors_iff (s : List Char) :
    scanAnchors s = true ↔
      ∃ pre post, s = pre ++ '\n' :: post ∧ matchMarkerAt post = true := by
  induction s with
  | nil =>
    simp only [scanAnchors]
    constructor
    · intro h
      exact absurd h (by simp)
    · rintro ⟨pre, post, hp, -⟩
      exact absurd hp (by simp)
  | cons c rest ih =>
    rw [scanAnchors, Bool.or_eq_true]
    constructor
    · rintro (h | h)
      · by_cases hc : c = '\n'
        · rw [if_pos hc] at h
          exact ⟨[], rest, by simp [hc], h⟩
        · rw [if_neg hc] at h
          exact absurd h (by simp)
      · obtain ⟨pre, post, hp, hm⟩ := ih.mp h
        exact ⟨c :: pre, post, by simp [hp], hm⟩
    · rintro ⟨pre, post, hp, hm⟩
      match pre, hp with
      | [], hp =>
        have hc : c = '\n' := by simpa using congrArg List.head? hp
        have hr : rest = post := by simpa using congrArg List.tail hp
        exact Or.inl (by rw [if_pos hc, hr]; exact hm)
      | p :: pre2, hp =>
        have hr : rest = pre2 ++ '\n' :: post := by
          simpa using congrArg List.tail hp
        exact Or.inr (ih.mpr ⟨pre2, post, hr, hm⟩)

theorem mem_ite_singleton_append (a x : List Char) (A : Prop) [Decidable A]
    (rest : List (List Char)) :
    (a ∈ (if A then [x] else []) ++ rest) ↔ (A ∧ a = x) ∨ a ∈ rest := by
  by_cases h : A <;> simp [h]

theorem mem_ite_singleton (a x : List Char) (A : Prop) [Decidable A] :
    (a ∈ (if A then [x] else [])) ↔ A ∧ a = x := by
  by_cases h : A <;> simp [h]

theorem paragraph_flag_iff (s : List Char) :
    (containsSeq ('\n' :: '\n' :: []) s || decide (0 < s.count '\n')) = true ↔
      '\n' ∈ s := by
  rw [Bool.or_eq_true, decide_eq_true_eq, List.count_pos_iff]
  constructor
  · rintro (h | h)
    · exact containsSeq_cons_mem _ _ _ h
    · exact h
  · exact fun h => Or.inr h

/-- C8: the diagnostics of `analyze_custom_output` are exactly the three
heuristics on the trimmed text: `word_limit_exceeded` is reported iff the
word-boundary word count exceeds 120, `multiple_paragraphs_detected` iff the
trimmed text contains a newline, and `list_formatting_detected` iff the
line-leading marker pattern matches at the start of the text or just after
some newline. -/
theorem C8_diagnostics (text : List Char) :
    ("word_limit_exceeded".toList ∈ (analyze_custom_output text).violations ↔
        120 < countWords (pyStrip text))
    ∧ ("multiple_paragraphs_detected".toList ∈ (analyze_custom_output text).violations ↔
        '\n' ∈ pyStrip text)
    ∧ ("list_formatting_detected".toList ∈ (analyze_custom_output text).violations ↔
        (matchMarkerAt (pyStrip text) = true ∨
          ∃ pre post, pyStrip text = pre ++ '\n' :: post ∧ matchMarkerAt post = true)) := by
  simp only [analyze_custom_output]
  rw [List.append_assoc]
  refine ⟨?_, ?_, ?_⟩
  · rw [mem_ite_singleton_append]
    rw [mem_ite_singleton_append, mem_ite_singleton]
    have h1 : ("word_limit_exceeded".toList : List Char) ≠
        "multiple_paragraphs_detected".toList := by decide
    have h2 : ("word_limit_exceeded".toList : List Char) ≠
        "list_formatting_detected".toList := by decide
    simp [h1, h2]
  · rw [mem_ite_singleton_append]
    rw [mem_ite_singleton_append, mem_ite_singleton]
    have h1 : ("multiple_paragraphs_detected".toList : List Char) ≠
        "word_limit_exceeded".toList := by decide
    have h2 : ("multiple_paragraphs_detected".toList : List Char) ≠
        "list_formatting_detected".toList := by decide
    rw [← paragraph_flag_iff (pyStrip text)]
    simp [h1, h2]
  · rw [mem_ite_singleton_append]
    rw [mem_ite_singleton_append, mem_ite_singleton]
    have h1 : ("list_formatting_detected".toList : List Char) ≠
        "word_limit_exceeded".toList := by decide
    have h2 : ("list_formatting_detected".toList : List Char) ≠
        "multiple_paragraphs_detected".toList := by decide
    rw [← scanAnchors_iff (pyStrip text)]
    simp [h1, h2, hasListMarker]

/-! ### The continuation loop and the light-edit invariant -/

theorem dictGet_dictSet_self (d : PyDict) (k : List Char) (v : PyVal) :
    dictGet (dictSet d k v) k = some v := by
  induction d with
  | nil => simp [dictSet, dictGet]
  | cons p rest ih =>
    obtain ⟨k2, w⟩ := p
    by_cases h : k2 = k
    · simp [dictSet, dictGet, h]
    · simp [dictSet, dictGet, h, ih]

theorem dictGet_dictSet_ne (d : PyDict) (k k2 : List Char) (v : PyVal)
    (hne : k2 ≠ k) :
    dictGet (dictSet d k v) k2 = dictGet d k2 := by
  have hkk2 : ¬(k = k2) := fun h => hne h.symm
  induction d with
  | nil => simp [dictSet, dictGet, hkk2]
  | cons p rest ih =>
    obtain ⟨k3, w⟩ := p
    by_cases h : k3 = k
    · have hk3 : ¬(k3 = k2) := by rw [h]; exact hkk2
      simp [dictSet, dictGet, h, hk3, hkk2]
    · simp [dictSet, dictGet, h, ih]

theorem mergeOne_cases (v : PyDict) (f : List Char) (cont : PyDict) (v2 : PyDict)
    (hm : mergeOne v f cont = .ok v2) :
    v2 = v ∨ ∃ s, v2 = dictSet v f (.str s) := by
  rw [mergeOne] at hm
  cases h1 : pyStripVal (pyOrEmptyStr (dictGet cont f)) with
  | error e => rw [h1] at hm; simp at hm
  | ok a =>
    rw [h1, exceptBind_ok] at hm
    by_cases ha : a = []
    · rw [if_pos ha] at hm
      refine Or.inl ?_
      have : (Except.ok v : Except PyErr PyDict) = .ok v2 := hm
      cases this
      rfl
    · rw [if_neg ha] at hm
      dsimp only at hm
      cases h2 : sepAndBase (dictGetD v f (.str [])) with
      | error e => rw [h2] at hm; simp at hm
      | ok bs =>
        obtain ⟨b, sep⟩ := bs
        rw [h2, exceptBind_ok] at hm
        dsimp only at hm
        refine Or.inr ⟨b ++ sep ++ a, ?_⟩
        have : (Except.ok (dictSet v f (.str (b ++ sep ++ a))) :
            Except PyErr PyDict) = .ok v2 := hm
        cases this
        rfl

theorem mergeOne_preserves_str (v : PyDict) (f : List Char) (cont : PyDict)
    (v2 : PyDict) (k : List Char) (hm : mergeOne v f cont = .ok v2)
    (hv : ∃ s, dictGet v k = some (.str s)) :
    ∃ s, dictGet v2 k = some (.str s) := by
  rcases mergeOne_cases v f cont v2 hm with h | ⟨s0, h⟩
  · rw [h]; exact hv
  · subst h
    by_cases hk : k = f
    · subst hk
      exact ⟨s0, dictGet_dictSet_self v k (.str s0)⟩
    · rw [dictGet_dictSet_ne v f k (.str s0) hk]
      exact hv

theorem contLoop_preserves_str (O : Oracles) (env : SessionEnv) (k : List Char) :
    ∀ (fuel : Nat) (v : PyDict) (r : Nat) (n : Bool) (raws : List (List Char))
      (lr : LoopRes), contLoop O env fuel v r n raws = .ok lr →
      (∃ s, dictGet v k = some (.str s)) →
      ∃ s, dictGet lr.variants k = some (.str s) := by
  intro fuel
  induction fuel with
  | zero =>
    intro v r n raws lr h hv
    rw [contLoop] at h
    cases h
    exact hv
  | succ f ih =>
    intro v r n raws lr h hv
    rw [contLoop] at h
    by_cases hn : n = false
    · rw [if_pos hn] at h
      cases h
      exact hv
    · rw [if_neg hn] at h
      cases hreq : (request_strict_variants O (r + 1) (some env.sessionId)).1 with
      | error e =>
        rw [hreq] at h
        dsimp only at h
        by_cases hc : isCaughtAt169 e = true
        · rw [if_pos hc] at h
          cases h
          exact hv
        · rw [if_neg hc] at h
          exact absurd h (by simp)
      | ok pr =>
        rw [hreq] at h
        obtain ⟨contVal, contRaw⟩ := pr
        cases contVal with
        | dict contDict =>
          simp only at h
          cases h1 : mergeOne v originalStrictKey contDict with
          | error e => rw [h1] at h; simp at h
          | ok v1 =>
            rw [h1, exceptBind_ok] at h
            cases h2 : mergeOne v1 englishStrictKey contDict with
            | error e => rw [h2] at h; simp at h
            | ok vv =>
              rw [h2, exceptBind_ok] at h
              cases h3 : needs_continuation vv with
              | error e => rw [h3] at h; simp at h
              | ok n2 =>
                rw [h3, exceptBind_ok] at h
                exact ih vv (r + 1) n2 _ lr h
                  (mergeOne_preserves_str v1 englishStrictKey contDict vv k h2
                    (mergeOne_preserves_str v originalStrictKey contDict v1 k h1 hv))
        | null => cases h; exact hv
        | bool b => cases h; exact hv
        | int n2 => cases h; exact hv
        | numF l => cases h; exact hv
        | str s => cases h; exact hv
        | arr xs => cases h; exact hv

theorem contLoop_retry_le (O : Oracles) (env : SessionEnv) :
    ∀ (fuel : Nat) (v : PyDict) (r : Nat) (n : Bool) (raws : List (List Char))
      (lr : LoopRes), contLoop O env fuel v r n raws = .ok lr →
      lr.retryCount ≤ r + fuel := by
  intro fuel
  induction fuel with
  | zero =>
    intro v r n raws lr h
    rw [contLoop] at h
    cases h
    exact Nat.le_refl r
  | succ f ih =>
    intro v r n raws lr h
    rw [contLoop] at h
    by_cases hn : n = false
    · rw [if_pos hn] at h
      cases h
      exact Nat.le_add_right r (f + 1)
    · rw [if_neg hn] at h
      cases hreq : (request_strict_variants O (r + 1) (some env.sessionId)).1 with
      | error e =>
        rw [hreq] at h
        dsimp only at h
        by_cases hc : isCaughtAt169 e = true
        · rw [if_pos hc] at h
          cases h
          show r + 1 ≤ r + (f + 1)
          omega
        · rw [if_neg hc] at h
          exact absurd h (by simp)
      | ok pr =>
        rw [hreq] at h
        obtain ⟨contVal, contRaw⟩ := pr
        cases contVal with
        | dict contDict =>
          simp only at h
          cases h1 : mergeOne v originalStrictKey contDict with
          | error e => rw [h1] at h; simp at h
          | ok v1 =>
            rw [h1, exceptBind_ok] at h
            cases h2 : mergeOne v1 englishStrictKey contDict with
            | error e => rw [h2] at h; simp at h
            | ok vv =>
              rw [h2, exceptBind_ok] at h
              cases h3 : needs_continuation vv with
              | error e => rw [h3] at h; simp at h
              | ok n2 =>
                rw [h3, exceptBind_ok] at h
                have := ih vv (r + 1) n2 _ lr h
                omega
        | null => cases h; simp
        | bool b => cases h; simp
        | int n2 => cases h; simp
        | numF l => cases h; simp
        | str s => cases h; simp
        | arr xs => cases h; simp

theorem getItem_ok (d : PyDict) (k : List Char) (v : PyVal)
    (h : dictGet d k = some v) : getItem d k = .ok v := by
  rw [getItem, h]

theorem preLight_contLoop (O : Oracles) (env : SessionEnv) (parsed : PyVal)
    (lr : LoopRes) (td : Bool) (hpre : preLight O env parsed = .ok (lr, td)) :
    ∃ d, asStrictDict parsed = .ok d ∧ needs_continuation d = .ok td ∧
      contLoop O env MAX_CONTINUATION_ATTEMPTS d 0 td [] = .ok lr := by
  rw [preLight] at hpre
  cases hd : asStrictDict parsed with
  | error e => rw [hd] at hpre; simp at hpre
  | ok d =>
    rw [hd, exceptBind_ok] at hpre
    cases hn0 : needs_continuation d with
    | error e => rw [hn0] at hpre; simp at hpre
    | ok n0 =>
      rw [hn0, exceptBind_ok] at hpre
      cases hcl : contLoop O env MAX_CONTINUATION_ATTEMPTS d 0 n0 [] with
      | error e => rw [hcl] at hpre; simp at hpre
      | ok lr2 =>
        rw [hcl, exceptBind_ok] at hpre
        have hp : (lr2, n0) = (lr, td) := by
          have : (Except.ok (lr2, n0) : Except PyErr (LoopRes × Bool)) =
              .ok (lr, td) := hpre
          cases this
          rfl
        have h1 : lr2 = lr := congrArg Prod.fst hp
        have h2 : n0 = td := congrArg Prod.snd hp
        subst h1
        subst h2
        exact ⟨d, rfl, hn0, hcl⟩

/-- C7 counterexample: with a parsed model output that is the *empty* JSON
object, the session reaches the light-edit step (the continuation loop never
runs since nothing looks truncated) with a `strict_variants` mapping holding
*neither* key — the claim's "for every shape of parsed model output" fails
(the subsequent subscript raises `KeyError`). -/
theorem C7_counterexample :
    strictVariantsAtLightEdit oraclePlain envTriv (.dict []) = some []
    ∧ dictGet ([] : PyDict) originalStrictKey = none := ⟨rfl, rfl⟩

/-- C7 amended: whenever the *initially parsed* mapping holds strings under
both `originalStrict` and `englishStrict`, every session reaching the
light-edit step does so with both keys still populated by strings — the
continuation merge only ever rewrites these fields to strings. -/
theorem C7_amended (O : Oracles) (env : SessionEnv) (d : PyDict)
    (s0 e0 : List Char)
    (ho : dictGet d originalStrictKey = some (.str s0))
    (he : dictGet d englishStrictKey = some (.str e0))
    (sv : PyDict)
    (hsv : strictVariantsAtLightEdit O env (.dict d) = some sv) :
    (∃ s, dictGet sv originalStrictKey = some (.str s))
    ∧ (∃ s, dictGet sv englishStrictKey = some (.str s)) := by
  rw [strictVariantsAtLightEdit] at hsv
  cases hpre : preLight O env (.dict d) with
  | error e => rw [hpre] at hsv; simp at hsv
  | ok lrtd =>
    rw [hpre] at hsv
    dsimp only at hsv
    have hsv2 : lrtd.1.variants = sv := by
      injection hsv
    obtain ⟨lr, td⟩ := lrtd
    obtain ⟨d2, hd2, hn0, hcl⟩ :=
      preLight_contLoop O env (.dict d) lr td hpre
    have hdd : d2 = d := by
      have h : (Except.ok d : Except PyErr PyDict) = .ok d2 := hd2
      cases h
      rfl
    subst hdd
    rw [← hsv2]
    exact ⟨contLoop_preserves_str O env originalStrictKey _ d2 0 td [] lr hcl ⟨s0, ho⟩,
      contLoop_preserves_str O env englishStrictKey _ d2 0 td [] lr hcl ⟨e0, he⟩⟩

/-- C7 witness: the amended invariant applied to the session whose parsed
output holds both fields as empty strings. -/
theorem C7_amended_witness :
    strictVariantsAtLightEdit oraclePlain envTriv (.dict dBothEmpty) = some dBothEmpty
    ∧ ((∃ s, dictGet dBothEmpty originalStrictKey = some (.str s))
      ∧ (∃ s, dictGet dBothEmpty englishStrictKey = some (.str s))) :=
  ⟨rfl, C7_amended oraclePlain envTriv dBothEmpty [] [] rfl rfl dBothEmpty rfl⟩

/-- C3 counterexample: a session whose initial parse yields only a truncated
`originalStrict` (200 non-terminal characters) and whose continuation
request comes back unparseable exits the loop after the single permitted
attempt with truncation still detected — but instead of returning the
four-variant result, the light-edit subscript `strict_variants
["englishStrict"]` raises `KeyError`, so the request *does* fail. -/
theorem C3_counterexample :
    preLight oracleParseFail envTriv
        (.dict [(originalStrictKey, .str (List.replicate 200 'a'))]) =
      .ok (⟨[(originalStrictKey, .str (List.replicate 200 'a'))], 1, true, []⟩, true)
    ∧ transcribeFromParsed oracleParseFail envTriv
        (.dict [(originalStrictKey, .str (List.replicate 200 'a'))]) =
      .error (.keyError englishStrictKey) := ⟨rfl, rfl⟩

/-- C3 amended: the loop performs at most `MAX_CONTINUATION_ATTEMPTS` (= 1)
continuation round-trips, and whenever it exits with both strict fields
strings, the session completes: `truncatedAfterRetries` records exactly the
residual truncation flag and the result carries all four variants. -/
theorem C3_amended (O : Oracles) (env : SessionEnv) (parsed : PyVal)
    (lr : LoopRes) (td : Bool)
    (hpre : preLight O env parsed = .ok (lr, td)) :
    lr.retryCount ≤ MAX_CONTINUATION_ATTEMPTS
    ∧ (∀ so eo, dictGet lr.variants originalStrictKey = some (.str so) →
        dictGet lr.variants englishStrictKey = some (.str eo) →
        ∃ out, transcribeFromParsed O env parsed = .ok out
          ∧ out.truncatedAfterRetries = lr.needs
          ∧ dictGet out.metadata "truncatedAfterRetries".toList = some (.bool lr.needs)
          ∧ dictGet out.resultDict "originalStrict".toList = some (.str so)
          ∧ dictGet out.resultDict "englishStrict".toList = some (.str eo)
          ∧ (dictGet out.resultDict "originalLight".toList).isSome = true
          ∧ (dictGet out.resultDict "englishLight".toList).isSome = true) := by
  obtain ⟨d, hd, hn0, hcl⟩ := preLight_contLoop O env parsed lr td hpre
  constructor
  · have := contLoop_retry_le O env MAX_CONTINUATION_ATTEMPTS d 0 td [] lr hcl
    omega
  · intro so eo hso heo
    simp only [transcribeFromParsed, hpre, exceptBind_ok]
    rw [getItem_ok _ _ _ hso, exceptBind_ok]
    obtain ⟨t1, ht1⟩ : ∃ t, apply_light_edit_val O (.str so) = .ok t := ⟨_, rfl⟩
    rw [ht1, exceptBind_ok]
    rw [getItem_ok _ _ _ heo, exceptBind_ok]
    obtain ⟨t2, ht2⟩ : ∃ t, apply_light_edit_val O (.str eo) = .ok t := ⟨_, rfl⟩
    rw [ht2, exceptBind_ok]
    exact ⟨_, rfl, rfl, rfl, rfl, rfl, rfl, rfl⟩

/-- C3 witness: the amended theorem applied to a session whose parsed output
holds both fields as empty strings (no truncation, loop never runs). -/
theorem C3_amended_witness :
    preLight oraclePlain envTriv (.dict dBothEmpty) =
      .ok (⟨dBothEmpty, 0, false, []⟩, false)
    ∧ (⟨dBothEmpty, 0, false, []⟩ : LoopRes).retryCount ≤
        MAX_CONTINUATION_ATTEMPTS :=
  ⟨rfl, (C3_amended oraclePlain envTriv (.dict dBothEmpty)
    ⟨dBothEmpty, 0, false, []⟩ false rfl).1⟩
